import Mathlib

/-!
Shallow embedding of the Phase4 core of the distributed file system
(`src/Phase4` of KrishnaChamarthy/Distributed-File-System-Storage),
with proofs about the claims of the specification.

Conventions used throughout:
* C++ `std::vector<uint8_t>` becomes `List Nat` (byte values; all operations
  keep values below 256).
* C++ `std::string` becomes `String`; checksums are lowercase-hex strings.
* `std::map` / `std::unordered_map` become association lists; `alookup`,
  `aset`, `aerase` mirror `find`, `operator[]` assignment and `erase`.
* `std::set<std::string>` becomes `List String` mutated through `insertS`
  (no-op when the element is present, like `set::insert`) and `seraseS`
  (drops the element, like `set::erase`).  Iteration order of a `std::set`
  differs from insertion order, but no claim proved here depends on it.
* `double` arithmetic (server loads) is modelled exactly over `ℚ`.
-/

namespace DFS

/-- Association-list lookup: first entry whose key matches (like `map::find`). -/
def alookup {α : Type} : List (String × α) → String → Option α
  | [], _ => none
  | (k', v) :: rest, k => if k' = k then some v else alookup rest k

/-- Association-list assignment (like `map::operator[] = v`): replaces the
first entry with the key, or appends a new entry. -/
def aset {α : Type} : List (String × α) → String → α → List (String × α)
  | [], k, v => [(k, v)]
  | (k', v') :: rest, k, v =>
      if k' = k then (k, v) :: rest else (k', v') :: aset rest k v

/-- Association-list erase (like `map::erase`): removes the first entry with
the key. -/
def aerase {α : Type} : List (String × α) → String → List (String × α)
  | [], _ => []
  | (k', v') :: rest, k => if k' = k then rest else (k', v') :: aerase rest k

/-- `std::set` insert: no-op when present. -/
def insertS (l : List String) (x : String) : List String :=
  if x ∈ l then l else l ++ [x]

/-- `std::set` erase: removes the element (a set never holds duplicates). -/
def seraseS (l : List String) (x : String) : List String :=
  l.filter (fun y => y ≠ x)

/-! ### SHA-256 (`Utils::calculateSHA256`, via OpenSSL `SHA256`)

`Utils::calculateSHA256` hashes the bytes with SHA-256 and renders the
32-byte digest as 64 lowercase hex characters.  The OpenSSL primitive is
implemented here directly (FIPS 180-4) over `Nat` with explicit `% 2^32`. -/

def w32 : Nat := 4294967296

def rotr (n w : Nat) : Nat := ((w >>> n) ||| (w <<< (32 - n))) % w32

def shaS0 (x : Nat) : Nat := (rotr 2 x) ^^^ (rotr 13 x) ^^^ (rotr 22 x)

def shaS1 (x : Nat) : Nat := (rotr 6 x) ^^^ (rotr 11 x) ^^^ (rotr 25 x)

def shaL0 (x : Nat) : Nat := (rotr 7 x) ^^^ (rotr 18 x) ^^^ (x >>> 3)

def shaL1 (x : Nat) : Nat := (rotr 17 x) ^^^ (rotr 19 x) ^^^ (x >>> 10)

def shaCh (x y z : Nat) : Nat := (x &&& y) ^^^ ((x ^^^ 4294967295) &&& z)

def shaMaj (x y z : Nat) : Nat := (x &&& y) ^^^ (x &&& z) ^^^ (y &&& z)

def shaK : List Nat :=
  [116352408, 1899447441, 3049323471, 3921009573, 961987163, 1508970993,
   2453635748, 2870763221, 3624381080, 310598401, 607225278, 1426881987,
   1925078388, 2162078206, 2614888103, 3248222580, 3835390401, 4022224774,
   264347078, 604807628, 770255983, 1249150122, 1555081692, 1996064986,
   2554220882, 2821834349, 2952996808, 3210313671, 3336571891, 3584528711,
   113926993, 338241895, 666307205, 773529912, 1294757372, 1396182291,
   1695183700, 1986661051, 2177026350, 2456956037, 2730485921, 2820302411,
   3259730800, 3345764771, 3516065817, 3600352804, 4094571909, 275423344,
   430227734, 506948616, 659060556, 883997877, 958139571, 1322822218,
   1537002063, 1747873779, 1955562222, 2024104815, 2227730452, 2361852424,
   2428436474, 2756734187, 3204031479, 3329325298]

def shaH0 : List Nat :=
  [779033703, 3144134277, 1013904242, 2773480762,
   1359893119, 2600822924, 528734635, 1541459225]

structure Sha8 where
  a : Nat
  b : Nat
  c : Nat
  d : Nat
  e : Nat
  f : Nat
  g : Nat
  h : Nat

def shaRound (st : Sha8) (kw : Nat × Nat) : Sha8 :=
  let t1 := (st.h + shaS1 st.e + shaCh st.e st.f st.g + kw.1 + kw.2) % w32
  let t2 := (shaS0 st.a + shaMaj st.a st.b st.c) % w32
  ⟨(t1 + t2) % w32, st.a, st.b, st.c, (st.d + t1) % w32, st.e, st.f, st.g⟩

/-- Big-endian 4-byte groups to 32-bit words. -/
def toWords : List Nat → List Nat
  | b0 :: b1 :: b2 :: b3 :: rest =>
      (((b0 * 256 + b1) * 256 + b2) * 256 + b3) :: toWords rest
  | _ => []

/-- Extend the 16-word block to the 64-word message schedule (48 steps). -/
def extendSched : Nat → List Nat → List Nat
  | 0, w => w
  | n + 1, w =>
      let t := w.length
      let nw := (w.getD (t - 16) 0 + shaL0 (w.getD (t - 15) 0) +
                 w.getD (t - 7) 0 + shaL1 (w.getD (t - 2) 0)) % w32
      extendSched n (w ++ [nw])

def shaCompress (h : List Nat) (block : List Nat) : List Nat :=
  let ws := extendSched 48 (toWords block)
  let i : Sha8 := ⟨h.getD 0 0, h.getD 1 0, h.getD 2 0, h.getD 3 0,
                   h.getD 4 0, h.getD 5 0, h.getD 6 0, h.getD 7 0⟩
  let z := (shaK.zip ws).foldl shaRound i
  [(i.a + z.a) % w32, (i.b + z.b) % w32, (i.c + z.c) % w32, (i.d + z.d) % w32,
   (i.e + z.e) % w32, (i.f + z.f) % w32, (i.g + z.g) % w32, (i.h + z.h) % w32]

/-- 64-byte blocks of the padded message (whose length is a positive
multiple of 64), indexed like the block loop. -/
def chunks64 (l : List Nat) : List (List Nat) :=
  (List.range ((l.length + 63) / 64)).map (fun i => (l.drop (64 * i)).take 64)

/-- FIPS 180-4 padding: `0x80`, zeros to 56 mod 64, 8-byte big-endian bit length. -/
def shaPad (msg : List Nat) : List Nat :=
  let L := msg.length
  msg ++ [128] ++ List.replicate ((119 - (L % 64)) % 64) 0 ++
    (List.range 8).map (fun i => ((8 * L) >>> (8 * (7 - i))) % 256)

def sha256Bytes (msg : List Nat) : List Nat :=
  let hs := (chunks64 (shaPad msg)).foldl shaCompress shaH0
  hs.flatMap (fun w => (List.range 4).map (fun i => (w >>> (8 * (3 - i))) % 256))

def hexChars : List Char := "0123456789abcdef".toList

/-- One byte as two lowercase hex characters (`setw(2)`, `setfill('0')`). -/
def byteToHex (b : Nat) : List Char :=
  [hexChars.getD (b / 16) '0', hexChars.getD (b % 16) '0']

/-- Bytes to a lowercase-hex string. -/
def hexOfBytes (bs : List Nat) : String :=
  String.mk (bs.flatMap byteToHex)

/-- `Utils::calculateSHA256`: lowercase-hex SHA-256 of the bytes. -/
def sha256Hex (msg : List Nat) : String :=
  hexOfBytes (sha256Bytes msg)

/-! ### Reed-Solomon codec over GF(2^8) (`src/common/erasure_coding.cpp`)

`ErasureCoding::initializeTables` builds the exp table by repeated doubling
modulo the primitive polynomial `0x11D`, and the log table as its inverse
(`log[0] := 0` stays from initialisation, `log[1] := 0` is (re)assigned at
the end; no value repeats among `exp[1..254]`, see `gfExpList_nodup`). -/

/-- One step of `x <<= 1; if (x & 0x100) x ^= 0x11D;`. -/
def gfStep (x : Nat) : Nat :=
  let y := x <<< 1
  if y &&& 0x100 ≠ 0 then y ^^^ 0x11D else y

def gfExpAux : Nat → Nat → List Nat
  | 0, _ => []
  | n + 1, x =>
      let y := gfStep x
      y :: gfExpAux n y

/-- `gf_exp_table_[0..254]` as built by `initializeTables`. -/
def gfExpList : List Nat := 1 :: gfExpAux 254 1

/-- `gf_exp_table_[0..255]`; the code sets `exp[255] = exp[0]`. -/
def gfExpTable : List Nat := gfExpList ++ [1]

/-- `gf_log_table_`.  The loop writes `log[exp[i]] = i` for `i = 1..254`
(each nonzero value other than 1 is written exactly once), `log[0]` keeps its
initial 0 and `log[1]` is 0; `indexOf` reproduces exactly this table. -/
def gfLog (a : Nat) : Nat :=
  if a = 0 then 0 else gfExpList.indexOf a

/-- `ErasureCoding::gf_multiply`. -/
def gfMul (a b : Nat) : Nat :=
  if a = 0 ∨ b = 0 then 0 else gfExpTable.getD ((gfLog a + gfLog b) % 255) 0

/-- `ErasureCoding::gf_divide`.  The code throws on `b = 0`; every division
performed below has a nonzero divisor (the pivot check precedes it), so the
`b = 0` case is immaterial (modelled as a table access like the rest). -/
def gfDiv (a b : Nat) : Nat :=
  if a = 0 then 0 else gfExpTable.getD ((gfLog a + 255 - gfLog b) % 255) 0

/-- `ErasureCoding::gf_power` (note `base = 0` is checked before `exp = 0`). -/
def gfPow (base exp : Nat) : Nat :=
  if base = 0 then 0
  else if exp = 0 then 1
  else gfExpTable.getD ((gfLog base * exp) % 255) 0

/-- `createVandermondeMatrix`: entry `(i, j)` is `(i+1)^j` in GF(2^8). -/
def vandermonde (rows cols : Nat) : List (List Nat) :=
  (List.range rows).map (fun i => (List.range cols).map (fun j => gfPow (i + 1) j))

/-- `matrixVectorMultiply` (callers always pass matching dimensions; the
row-wise sum `result[i] ^= m[i][j]*v[j]` is a fold over the zipped row). -/
def matVecMul (m : List (List Nat)) (v : List Nat) : List Nat :=
  m.map (fun row => (row.zip v).foldl (fun acc p => acc ^^^ gfMul p.1 p.2) 0)

/-- One outer iteration `i` of the Gauss-Jordan loop in `invertMatrix`:
pivot search below row `i` (first nonzero, else `i` itself), swap, scale the
pivot row (skipping zero entries), eliminate the column everywhere else. -/
def gjStep (n : Nat) (aug : List (List Nat)) (i : Nat) : Option (List (List Nat)) :=
  let pivot :=
    match (List.range (n - (i + 1))).find? (fun d => (aug.getD (i + 1 + d) []).getD i 0 ≠ 0) with
    | some d => i + 1 + d
    | none => i
  if (aug.getD pivot []).getD i 0 = 0 then none
  else
    let rowI := aug.getD pivot []
    let rowP := aug.getD i []
    let aug := (aug.set i rowI).set pivot rowP
    let diag := (aug.getD i []).getD i 0
    let scaled := (aug.getD i []).map (fun x => if x ≠ 0 then gfDiv x diag else x)
    let aug := aug.set i scaled
    some ((List.range aug.length).map (fun k =>
      let rowK := aug.getD k []
      let factor := rowK.getD i 0
      if k ≠ i ∧ factor ≠ 0 then
        rowK.zipWith (fun a b => a ^^^ gfMul factor b) scaled
      else rowK))

/-- `invertMatrix` via Gauss-Jordan on the augmented matrix; `none` models
the `runtime_error` thrown when no pivot is found.  (Callers pass square
matrices; the dimension check throw is subsumed by faithful indexing.) -/
def invertMatrix (m : List (List Nat)) : Option (List (List Nat)) :=
  let n := m.length
  let aug := (List.range n).map (fun i =>
    (m.getD i []) ++ (List.range n).map (fun j => if i = j then 1 else 0))
  ((List.range n).foldl (fun st i => st.bind (fun a => gjStep n a i)) (some aug)).map
    (fun a => a.map (fun row => row.drop n))

/-- `ErasureCoding::encode` with `data_blocks_ = k`, `parity_blocks_ = m`:
pad to `k * blockSize`, split into `k` data blocks returned verbatim, and
compute each parity block per byte position from the Vandermonde rows
`k..k+m-1`. -/
def ecEncode (k m : Nat) (data : List Nat) : List (List Nat) :=
  if data = [] then []
  else
    let bs := (data.length + k - 1) / k
    let padded := data ++ List.replicate (k * bs - data.length) 0
    let dataBlocks := (List.range k).map (fun i => (padded.drop (i * bs)).take bs)
    let em := vandermonde (k + m) k
    let parity := (List.range m).map (fun p =>
      (List.range bs).map (fun j =>
        (matVecMul [em.getD (k + p) []] (dataBlocks.map (fun db => db.getD j 0))).getD 0 0))
    dataBlocks ++ parity

/-- `ErasureCoding::decode`.  The per-byte-position loop producing
`decoded_blocks[i][j]` is realised as the list of decoded columns, from
which block `i` is read back off; the final result is the concatenation of
the `k` decoded blocks. -/
def ecDecode (k m : Nat) (blocks : List (List Nat)) (avail : List Bool) :
    Except String (List Nat) :=
  if blocks.length ≠ k + m ∨ avail.length ≠ k + m then
    .error "Invalid block or availability vector size"
  else
    let availIdx := (List.range (k + m)).filter (fun i => avail.getD i false)
    if availIdx.length < k then .error "Not enough blocks available for decoding"
    else if (List.range k).all (fun i => avail.getD i false) then
      .ok ((List.range k).foldl (fun acc i => acc ++ blocks.getD i []) [])
    else
      let idxs := availIdx.take k
      let em := vandermonde (k + m) k
      match invertMatrix (idxs.map (fun i => em.getD i [])) with
      | none => .error "Matrix is not invertible"
      | some inv =>
        let bs := (blocks.getD (idxs.getD 0 0) []).length
        let cols := (List.range bs).map (fun j =>
          matVecMul inv (idxs.map (fun i => (blocks.getD i []).getD j 0)))
        .ok ((List.range k).foldl (fun acc i => acc ++ cols.map (fun c => c.getD i 0)) [])

/-- `ErasureCoding::canDecode`: at least `k` entries of `availability` true. -/
def canDecode (k : Nat) (avail : List Bool) : Bool :=
  decide (k ≤ avail.count true)

/-- `ErasureCodedChunkManager::removePadding`: truncate to the original size
(Nat model of a nonnegative `original_size ≤ data.size()`). -/
def removePadding (data : List Nat) (originalSize : Nat) : List Nat :=
  if originalSize > data.length then data else data.take originalSize

/-! ### Client pipeline (`src/client/client.cpp`)

`Uploader::splitFileIntoChunks` slices the file into `CHUNK_SIZE`-byte
chunks; `Downloader::assembleChunks` concatenates chunks in order.
`Downloader::downloadChunk` tries the servers of a chunk in order, accepting
the first response whose bytes hash to the advertised checksum, and returns
the empty vector when every server fails; `Downloader::downloadFile` fails
as soon as one chunk comes back empty.  The chunk cache is modelled empty
(every lookup is a miss), and the decrypt branch is not modelled: the
downloads stated about below are of non-encrypted files
(`file_info.is_encrypted() == false`), the only kind that can complete an
upload (see claim C5). -/

def CHUNK_SIZE : Nat := 4 * 1024 * 1024

/-- `Uploader::splitFileIntoChunks`, with the chunk size as a parameter
(the source uses the positive constant `CHUNK_SIZE`).  The loop
`for (i = 0; i < size; i += chunk_size)` runs once per block index
`i/chunk_size < ⌈size/chunk_size⌉` and copies
`min(chunk_size, size - i)` bytes starting at `i`, i.e. `take cs ∘ drop`. -/
def splitFileIntoChunks (cs : Nat) (d : List Nat) : List (List Nat) :=
  (List.range ((d.length + cs - 1) / cs)).map (fun i => (d.drop (i * cs)).take cs)

/-- `Downloader::assembleChunks`: append every chunk in order. -/
def assembleChunks (chunks : List (List Nat)) : List Nat :=
  chunks.foldl (fun acc c => acc ++ c) []

/-- The network as seen by the client: `net server chunk_id` is the
`ReadChunkResponse` (`data`, `checksum`) of a successful `ReadChunk`, or
`none` for a failed status/response. -/
def Net : Type := String → String → Option (List Nat × String)

/-- `Downloader::downloadChunk` (cache modelled empty): first server whose
response verifies against its own checksum; otherwise the next server;
empty vector when all fail. -/
def downloadChunk (net : Net) (cid : String) : List String → List Nat
  | [] => []
  | s :: rest =>
      match net s cid with
      | some (d, ck) => if sha256Hex d = ck then d else downloadChunk net cid rest
      | none => downloadChunk net cid rest

/-- The chunk loop of `Downloader::downloadFile`: fail on the first chunk
that comes back empty, otherwise collect the chunk bodies in order. -/
def downloadFileGo (net : Net) : List (String × List String) → List (List Nat) →
    Option (List (List Nat))
  | [], acc => some acc
  | (cid, srvs) :: rest, acc =>
      let d := downloadChunk net cid srvs
      if d = [] then none else downloadFileGo net rest (acc ++ [d])

/-- `Downloader::downloadFile` for a non-encrypted file, given the
`(chunk_id, server_addresses)` list of its `GetFileInfo` response: download
every chunk, then assemble. -/
def downloadFile (net : Net) (chunks : List (String × List String)) : Option (List Nat) :=
  (downloadFileGo net chunks []).map assembleChunks

/-- The store of one chunk server after the uploader wrote chunk `i` of the
recipe to it (`WriteChunk` stores the bytes verbatim, see
`ChunkStorage::writeChunk`). -/
def uploadStore (ids : List String) (chunks : List (List Nat)) : List (String × List Nat) :=
  ids.zip chunks

/-- A network of one chunk server `"srv"` holding `store`; `ReadChunk`
returns the stored bytes with their SHA-256 (the success path of
`ChunkServer::ReadChunk`). -/
def netOfStore (store : List (String × List Nat)) : Net :=
  fun _ cid => (alookup store cid).map (fun d => (d, sha256Hex d))

/-! ### Crypto (`src/common/crypto.cpp`)

`Crypto::KEY_SIZE = 32`, `IV_SIZE = 12`, `TAG_SIZE = 16`.  The AES-256-GCM
primitive itself is OpenSSL EVP (out of scope per the spec: "assume a
library that provides authenticated encryption"); `Crypto::encrypt` is
modelled with the cipher passed in as a function producing the ciphertext
and the 16-byte tag, and with the random IV and the `RAND_bytes` output as
parameters. -/

def KEY_SIZE : Nat := 32

/-- `Crypto::generateRandomKey`: 32 random bytes (the `RAND_bytes` output,
passed as a parameter) rendered as a hex string — doubling the length. -/
def generateRandomKey (randomBytes : List Nat) : String :=
  hexOfBytes randomBytes

/-- `KeyManager::generateKey` just calls `Crypto::generateRandomKey`. -/
def keyManagerGenerateKey (randomBytes : List Nat) : String :=
  generateRandomKey randomBytes

/-- `Crypto::encrypt`: reject any key whose `size()` differs from
`KEY_SIZE` (returning the empty vector), otherwise lay out
`IV ‖ ciphertext ‖ tag`. -/
def cryptoEncrypt (aesGcm : String → List Nat → List Nat → List Nat × List Nat)
    (plaintext : List Nat) (key : String) (iv : List Nat) : List Nat :=
  if key.length ≠ KEY_SIZE then []
  else
    let ct := (aesGcm key iv plaintext).1
    let tag := (aesGcm key iv plaintext).2
    iv ++ ct ++ tag

/-! ### Master metadata (`src/master/metadata_manager.cpp`, `master_server.cpp`)

The four collections of `MetadataManager` (`files_` is not needed by any
claim): `chunks_`, `servers_`, and the bidirectional `chunk_to_servers_` /
`server_to_chunks_` indices. -/

structure ServerMetadata where
  server_id : String
  address : String
  port : Int
  total_space : Int
  free_space : Int
  chunk_count : Nat
  cpu_usage : ℚ
  memory_usage : ℚ
  is_healthy : Bool
  last_heartbeat : Int
  stored_chunks : List String
deriving DecidableEq, Repr, Inhabited

structure ChunkMetadata where
  chunk_id : String
  size : Int
  checksum : String
  is_erasure_coded : Bool
  erasure_group_id : String
  erasure_block_index : Int
  is_parity_block : Bool
  server_locations : List String
  created_time : Int
  last_accessed_time : Int
deriving DecidableEq, Repr, Inhabited

structure MasterState where
  chunks : List (String × ChunkMetadata)
  servers : List (String × ServerMetadata)
  chunk_to_servers : List (String × List String)
  server_to_chunks : List (String × List String)
deriving DecidableEq, Repr

/-- `MetadataManager::getHealthyServers`. -/
def getHealthyServers (st : MasterState) : List ServerMetadata :=
  (st.servers.map Prod.snd).filter (fun s => s.is_healthy)

/-- `MetadataManager::registerServer` (`server_to_chunks_[server_id];`
default-constructs an empty entry when absent). -/
def registerServer (st : MasterState) (sid : String) (m : ServerMetadata) : MasterState :=
  { st with
    servers := aset st.servers sid m,
    server_to_chunks := aset st.server_to_chunks sid ((alookup st.server_to_chunks sid).getD []) }

/-- The per-location body shared by `addChunk` and `updateChunkLocations`:
insert the pair into both indices and, when the server is registered, into
its `stored_chunks` (refreshing `chunk_count`). -/
def addChunkLocStep (cid : String) (st : MasterState) (sid : String) : MasterState :=
  let st1 := { st with
    chunk_to_servers := aset st.chunk_to_servers cid
      (insertS ((alookup st.chunk_to_servers cid).getD []) sid),
    server_to_chunks := aset st.server_to_chunks sid
      (insertS ((alookup st.server_to_chunks sid).getD []) cid) }
  match alookup st1.servers sid with
  | some sm =>
      let stored := insertS sm.stored_chunks cid
      let sm1 := { sm with stored_chunks := stored, chunk_count := stored.length }
      { st1 with servers := aset st1.servers sid sm1 }
  | none => st1

/-- `MetadataManager::addChunk`. -/
def addChunk (st : MasterState) (cid : String) (meta : ChunkMetadata) : MasterState :=
  meta.server_locations.foldl (addChunkLocStep cid)
    { st with chunks := aset st.chunks cid meta }

/-- `MetadataManager::addChunkToServer`. -/
def addChunkToServer (st : MasterState) (cid sid : String) : MasterState :=
  let st1 := { st with
    chunk_to_servers := aset st.chunk_to_servers cid
      (insertS ((alookup st.chunk_to_servers cid).getD []) sid),
    server_to_chunks := aset st.server_to_chunks sid
      (insertS ((alookup st.server_to_chunks sid).getD []) cid) }
  let st2 :=
    match alookup st1.chunks cid with
    | some meta =>
        if sid ∈ meta.server_locations then st1
        else
          let meta1 := { meta with server_locations := meta.server_locations ++ [sid] }
          { st1 with chunks := aset st1.chunks cid meta1 }
    | none => st1
  match alookup st2.servers sid with
  | some sm =>
      let stored := insertS sm.stored_chunks cid
      let sm1 := { sm with stored_chunks := stored, chunk_count := stored.length }
      { st2 with servers := aset st2.servers sid sm1 }
  | none => st2

/-- `MetadataManager::removeChunkFromServer`.  `std::remove` on
`server_locations` drops every occurrence of the server. -/
def removeChunkFromServer (st : MasterState) (cid sid : String) : MasterState :=
  let st1 := { st with
    chunk_to_servers := aset st.chunk_to_servers cid
      (seraseS ((alookup st.chunk_to_servers cid).getD []) sid),
    server_to_chunks := aset st.server_to_chunks sid
      (seraseS ((alookup st.server_to_chunks sid).getD []) cid) }
  let st2 :=
    match alookup st1.chunks cid with
    | some meta =>
        let meta1 := { meta with server_locations := meta.server_locations.filter (fun x => x ≠ sid) }
        { st1 with chunks := aset st1.chunks cid meta1 }
    | none => st1
  match alookup st2.servers sid with
  | some sm =>
      let stored := seraseS sm.stored_chunks cid
      let sm1 := { sm with stored_chunks := stored, chunk_count := stored.length }
      { st2 with servers := aset st2.servers sid sm1 }
  | none => st2

/-- Loop body of `MetadataManager::removeChunkFromAllServers`. -/
def rcfasStep (cid : String) (st : MasterState) (sid : String) : MasterState :=
  let idx := aset st.server_to_chunks sid (seraseS ((alookup st.server_to_chunks sid).getD []) cid)
  let st1 := { st with server_to_chunks := idx }
  match alookup st1.servers sid with
  | some sm =>
      let stored := seraseS sm.stored_chunks cid
      let sm1 := { sm with stored_chunks := stored, chunk_count := stored.length }
      { st1 with servers := aset st1.servers sid sm1 }
  | none => st1

/-- `MetadataManager::removeChunkFromAllServers` (private; caller holds the
lock). -/
def removeChunkFromAllServers (st : MasterState) (cid : String) : MasterState :=
  match alookup st.chunk_to_servers cid with
  | none => st
  | some ss =>
      let st1 := ss.foldl (rcfasStep cid) st
      { st1 with chunk_to_servers := aerase st1.chunk_to_servers cid }

/-- `MetadataManager::updateChunkLocations`. -/
def updateChunkLocations (st : MasterState) (cid : String) (locs : List String) :
    Bool × MasterState :=
  match alookup st.chunks cid with
  | none => (false, st)
  | some meta =>
      let st1 := removeChunkFromAllServers st cid
      let st2 := { st1 with chunks := aset st1.chunks cid { meta with server_locations := locs } }
      (true, locs.foldl (addChunkLocStep cid) st2)

/-- Loop body of `MetadataManager::removeAllChunksFromServer`. -/
def racsStep (sid : String) (st : MasterState) (cid : String) : MasterState :=
  let idx := aset st.chunk_to_servers cid (seraseS ((alookup st.chunk_to_servers cid).getD []) sid)
  let st1 := { st with chunk_to_servers := idx }
  match alookup st1.chunks cid with
  | some meta =>
      let meta1 := { meta with server_locations := meta.server_locations.filter (fun x => x ≠ sid) }
      { st1 with chunks := aset st1.chunks cid meta1 }
  | none => st1

/-- `MetadataManager::removeAllChunksFromServer` (`it->second.clear()`). -/
def removeAllChunksFromServer (st : MasterState) (sid : String) : MasterState :=
  match alookup st.server_to_chunks sid with
  | none => st
  | some cs =>
      let st1 := cs.foldl (racsStep sid) st
      { st1 with server_to_chunks := aset st1.server_to_chunks sid [] }

/-- `MetadataManager::unregisterServer`. -/
def unregisterServer (st : MasterState) (sid : String) : Bool × MasterState :=
  match alookup st.servers sid with
  | none => (false, st)
  | some _ =>
      let st1 := removeAllChunksFromServer st sid
      (true, { st1 with
        servers := aerase st1.servers sid,
        server_to_chunks := aerase st1.server_to_chunks sid })

/-- `MetadataManager::updateServerMetadata`: wholesale replacement. -/
def updateServerMetadata (st : MasterState) (sid : String) (m : ServerMetadata) :
    Bool × MasterState :=
  match alookup st.servers sid with
  | none => (false, st)
  | some _ => (true, { st with servers := aset st.servers sid m })

/-- `MetadataManager::getChunksForServer`. -/
def getChunksForServer (st : MasterState) (sid : String) : List String :=
  (alookup st.server_to_chunks sid).getD []

structure HeartbeatRequest where
  server_id : String
  free_space : Int
  chunk_count : Nat
  cpu_usage : ℚ
  memory_usage : ℚ
  stored_chunks : List String
deriving DecidableEq, Repr

/-- The metadata mutation performed by `MasterServer::SendHeartbeat`: read
the server's metadata, overwrite its resource fields, replace
`stored_chunks` with the reported set, and store it back through
`updateServerMetadata`.  (The rebalance check that follows does not mutate
the metadata.) -/
def sendHeartbeatUpdate (st : MasterState) (req : HeartbeatRequest) (now : Int) :
    Bool × MasterState :=
  match alookup st.servers req.server_id with
  | none => (false, st)
  | some m =>
      let m1 := { m with
        free_space := req.free_space,
        chunk_count := req.chunk_count,
        cpu_usage := req.cpu_usage,
        memory_usage := req.memory_usage,
        last_heartbeat := now,
        is_healthy := true,
        stored_chunks := req.stored_chunks.foldl insertS [] }
      updateServerMetadata st req.server_id m1

/-- Membership of the pair `(c, s)` in the `chunk_to_servers_` index. -/
def pairCS (st : MasterState) (c s : String) : Prop :=
  s ∈ (alookup st.chunk_to_servers c).getD []

/-- Membership of the pair `(c, s)` in the `server_to_chunks_` index. -/
def pairSC (st : MasterState) (c s : String) : Prop :=
  c ∈ (alookup st.server_to_chunks s).getD []

/-- The three-way agreement of the chunk-server relation (spec §3, §4.2.1):
the two indices record the same pairs, and for every registered chunk `c`
and registered server `s`, `s` lies in `c.server_locations` iff `c` lies in
`s.stored_chunks` iff the pair is in the indices. -/
def Consistent (st : MasterState) : Prop :=
  (∀ e ∈ st.chunk_to_servers, ∀ s ∈ e.2, pairSC st e.1 s) ∧
  (∀ e ∈ st.server_to_chunks, ∀ c ∈ e.2, pairCS st c e.1) ∧
  (∀ ce ∈ st.chunks, ∀ se ∈ st.servers,
    (se.1 ∈ ce.2.server_locations ↔ pairCS st ce.1 se.1) ∧
    (ce.1 ∈ se.2.stored_chunks ↔ pairSC st ce.1 se.1))

instance (st : MasterState) : Decidable (Consistent st) := by
  unfold Consistent pairCS pairSC
  exact inferInstance

/-! ### Chunk allocator (`src/master/chunk_allocator.cpp`) -/

/-- `ChunkAllocator::calculateServerLoad`:
`0.5 * (1 - free/total) + 0.3 * cpu/100 + 0.2 * mem/100`, exactly over `ℚ`. -/
def calculateServerLoad (s : ServerMetadata) : ℚ :=
  1/2 * (1 - (s.free_space : ℚ) / (s.total_space : ℚ)) +
    3/10 * (s.cpu_usage / 100) + 1/5 * (s.memory_usage / 100)

/-- `ChunkAllocator::hasEnoughSpace`: at least 10% of total space must
remain free after the allocation (C++ `int64` division truncates toward
zero, which is `Int.tdiv`). -/
def hasEnoughSpace (s : ServerMetadata) (required : Int) : Bool :=
  decide (Int.tdiv s.total_space 10 ≤ s.free_space - required)

/-- `ChunkAllocator::getAvailableServers`: healthy, not excluded, with
enough space for a `CHUNK_SIZE` allocation. -/
def getAvailableServers (st : MasterState) (exclude : List String) : List ServerMetadata :=
  (getHealthyServers st).filter
    (fun s => decide (s.server_id ∉ exclude) && hasEnoughSpace s (CHUNK_SIZE : Int))

/-- The selection strategies.  `RANDOM` shuffles with a fresh `std::mt19937`;
the shuffle is modelled as an arbitrary permutation function.  `ZONE_AWARE`
reads the `server_zones_` map (`"default"` for unknown servers), modelled as
a function. -/
inductive Strategy where
  | roundRobin
  | leastLoaded
  | random (perm : List ServerMetadata → List ServerMetadata)
  | zoneAware (zones : String → String)

/-- The contract of the modelled environment: `std::shuffle` permutes. -/
def Strategy.Ok : Strategy → Prop
  | .random perm => ∀ l, List.Perm l (perm l)
  | _ => True

/-- The selection loop of `allocateRoundRobin`: pick `index mod size`,
erase the pick, advance the index (wrapping against the shrunken list). -/
def rrLoop : Nat → List ServerMetadata → Nat → List String → List String × Nat
  | 0, _, idx, acc => (acc.reverse, idx)
  | n + 1, avail, idx, acc =>
      if avail.isEmpty then (acc.reverse, idx)
      else
        rrLoop n (avail.eraseIdx (idx % avail.length))
          (if (avail.eraseIdx (idx % avail.length)).length ≤ idx + 1 ∧
              ¬(avail.eraseIdx (idx % avail.length)).isEmpty = true then 0 else idx + 1)
          ((avail.getD (idx % avail.length) default).server_id :: acc)

/-- `ChunkAllocator::allocateRoundRobin` (threads `round_robin_index_`). -/
def allocateRoundRobin (st : MasterState) (idx : Nat) (count : Nat)
    (exclude : List String) : List String × Nat :=
  if (getAvailableServers st exclude).isEmpty then ([], idx)
  else rrLoop count (getAvailableServers st exclude) idx []

/-- `ChunkAllocator::allocateLeastLoaded`: sort ascending by load
(`std::sort` modelled by insertion sort — only that it permutes matters),
take the first `count`. -/
def allocateLeastLoaded (st : MasterState) (count : Nat) (exclude : List String) :
    List String :=
  ((((getAvailableServers st exclude).insertionSort
      (fun a b => calculateServerLoad a < calculateServerLoad b)).take count).map
    (fun s => s.server_id))

/-- `ChunkAllocator::allocateRandom`: shuffle, take the first `count`. -/
def allocateRandom (perm : List ServerMetadata → List ServerMetadata)
    (st : MasterState) (count : Nat) (exclude : List String) : List String :=
  if (getAvailableServers st exclude).isEmpty then []
  else ((perm (getAvailableServers st exclude)).take count).map (fun s => s.server_id)

/-- First pass of `allocateZoneAware`: walk the available servers, keeping
one per previously unused zone, stopping at `count`. -/
def zaPass1 (zones : String → String) :
    List ServerMetadata → Nat → List String → List String → List String
  | [], _, _, res => res
  | s :: rest, count, used, res =>
      if count ≤ res.length then res
      else if zones s.server_id ∈ used then zaPass1 zones rest count used res
      else zaPass1 zones rest count (zones s.server_id :: used) (res ++ [s.server_id])

/-- `ChunkAllocator::allocateZoneAware`: one server per zone first, then
fill the remaining slots by least-loaded, excluding the already selected. -/
def allocateZoneAware (zones : String → String) (st : MasterState) (count : Nat)
    (exclude : List String) : List String :=
  if (zaPass1 zones (getAvailableServers st exclude) count [] []).length < count then
    zaPass1 zones (getAvailableServers st exclude) count [] [] ++
      allocateLeastLoaded st
        (count - (zaPass1 zones (getAvailableServers st exclude) count [] []).length)
        (exclude ++ zaPass1 zones (getAvailableServers st exclude) count [] [])
  else zaPass1 zones (getAvailableServers st exclude) count [] []

/-- The `switch (strategy_)` of `allocateServersForChunk`. -/
def runStrategy (strat : Strategy) (st : MasterState) (idx count : Nat)
    (exclude : List String) : List String × Nat :=
  match strat with
  | .roundRobin => allocateRoundRobin st idx count exclude
  | .leastLoaded => (allocateLeastLoaded st count exclude, idx)
  | .random perm => (allocateRandom perm st count exclude, idx)
  | .zoneAware zones => (allocateZoneAware zones st count exclude, idx)

structure ChunkInfo where
  chunk_id : String
  server_addresses : List String
  size : Int
  is_erasure_coded : Bool
deriving DecidableEq, Repr

/-- `ChunkAllocator::allocateServersForChunk`: run the strategy, then (when
servers were found) record the placement through `addChunk`. -/
def allocateServersForChunk (strat : Strategy) (σ : MasterState × Nat)
    (cid : String) (count : Nat) (exclude : List String) (now : Int) :
    List String × (MasterState × Nat) :=
  if (runStrategy strat σ.1 σ.2 count exclude).1.isEmpty then
    ((runStrategy strat σ.1 σ.2 count exclude).1,
      (σ.1, (runStrategy strat σ.1 σ.2 count exclude).2))
  else
    ((runStrategy strat σ.1 σ.2 count exclude).1,
      (addChunk σ.1 cid
        { chunk_id := cid, size := 0, checksum := "", is_erasure_coded := false,
          erasure_group_id := "", erasure_block_index := 0, is_parity_block := false,
          server_locations := (runStrategy strat σ.1 σ.2 count exclude).1,
          created_time := now, last_accessed_time := now },
        (runStrategy strat σ.1 σ.2 count exclude).2))

/-- The block loop of the erasure-coded branch of `allocateChunks`: one
server per block, skipping blocks for which allocation failed, extending
`exclude_servers` with each successful pick. -/
def allocGroupGo (strat : Strategy) (gid : String) (chunkSize : Int) (k : Nat)
    (now : Int) : List Nat → MasterState × Nat → List String →
    List ChunkInfo × (MasterState × Nat)
  | [], σ, _ => ([], σ)
  | b :: rest, σ, exclude =>
      if (allocateServersForChunk strat σ (gid ++ "_block_" ++ toString b) 1 exclude now).1.isEmpty then
        allocGroupGo strat gid chunkSize k now rest
          (allocateServersForChunk strat σ (gid ++ "_block_" ++ toString b) 1 exclude now).2 exclude
      else
        ({ chunk_id := gid ++ "_block_" ++ toString b,
           server_addresses :=
             (allocateServersForChunk strat σ (gid ++ "_block_" ++ toString b) 1 exclude now).1,
           size := Int.tdiv chunkSize (k : Int), is_erasure_coded := true } ::
          (allocGroupGo strat gid chunkSize k now rest
            (allocateServersForChunk strat σ (gid ++ "_block_" ++ toString b) 1 exclude now).2
            (exclude ++
              (allocateServersForChunk strat σ (gid ++ "_block_" ++ toString b) 1 exclude now).1)).1,
         (allocGroupGo strat gid chunkSize k now rest
            (allocateServersForChunk strat σ (gid ++ "_block_" ++ toString b) 1 exclude now).2
            (exclude ++
              (allocateServersForChunk strat σ (gid ++ "_block_" ++ toString b) 1 exclude now).1)).2)

/-- One erasure group of `allocateChunks` (fresh `exclude_servers`). -/
def allocGroup (strat : Strategy) (gid : String) (chunkSize : Int) (k total : Nat)
    (now : Int) (σ : MasterState × Nat) : List ChunkInfo × (MasterState × Nat) :=
  allocGroupGo strat gid chunkSize k now (List.range total) σ []

/-- The group loop of the erasure-coded branch, keeping the per-group lists. -/
def ecGroupsGo (strat : Strategy) (fid : String) (chunkSize : Int) (k total : Nat)
    (now : Int) : List Nat → MasterState × Nat →
    List (List ChunkInfo) × (MasterState × Nat)
  | [], σ => ([], σ)
  | g :: rest, σ =>
      ((allocGroup strat (fid ++ "_group_" ++ toString g) chunkSize k total now σ).1 ::
        (ecGroupsGo strat fid chunkSize k total now rest
          (allocGroup strat (fid ++ "_group_" ++ toString g) chunkSize k total now σ).2).1,
       (ecGroupsGo strat fid chunkSize k total now rest
          (allocGroup strat (fid ++ "_group_" ++ toString g) chunkSize k total now σ).2).2)

/-- The chunk loop of the replicated branch of `allocateChunks` (a warning
is logged when fewer than `replication_factor` servers were found, but the
chunk info is pushed regardless). -/
def replGo (strat : Strategy) (fid : String) (repl : Nat) (fileSize : Int)
    (now : Int) : List Nat → MasterState × Nat → List ChunkInfo × (MasterState × Nat)
  | [], σ => ([], σ)
  | i :: rest, σ =>
      ({ chunk_id := fid ++ "_chunk_" ++ toString i,
         server_addresses :=
           (allocateServersForChunk strat σ (fid ++ "_chunk_" ++ toString i) repl [] now).1,
         size := min (CHUNK_SIZE : Int) (fileSize - (i : Int) * (CHUNK_SIZE : Int)),
         is_erasure_coded := false } ::
        (replGo strat fid repl fileSize now rest
          (allocateServersForChunk strat σ (fid ++ "_chunk_" ++ toString i) repl [] now).2).1,
       (replGo strat fid repl fileSize now rest
          (allocateServersForChunk strat σ (fid ++ "_chunk_" ++ toString i) repl [] now).2).2)

/-- `ERASURE_CODING_DATA_BLOCKS` / `ERASURE_CODING_PARITY_BLOCKS`
(`ErasureCodedChunkManager`'s defaults agree with the former). -/
def EC_DATA_BLOCKS : Nat := 4

def EC_PARITY_BLOCKS : Nat := 2

/-- `ChunkAllocator::allocateChunks`.  `chunkSize` is
`Config::getChunkSize()` and `repl` is `Config::getReplicationFactor()`;
the replicated branch sizes chunks with the constant `CHUNK_SIZE`, as the
source does.  The erasure-coded branch is `ecGroupsGo` flattened. -/
def allocateChunks (strat : Strategy) (σ : MasterState × Nat) (fid : String)
    (fileSize : Int) (ec : Bool) (chunkSize : Int) (repl : Nat) (now : Int) :
    List ChunkInfo × (MasterState × Nat) :=
  if ec then
    ((ecGroupsGo strat fid chunkSize EC_DATA_BLOCKS (EC_DATA_BLOCKS + EC_PARITY_BLOCKS) now
        (List.range (Int.tdiv (fileSize + chunkSize - 1) chunkSize).toNat) σ).1.flatten,
      (ecGroupsGo strat fid chunkSize EC_DATA_BLOCKS (EC_DATA_BLOCKS + EC_PARITY_BLOCKS) now
        (List.range (Int.tdiv (fileSize + chunkSize - 1) chunkSize).toNat) σ).2)
  else
    replGo strat fid repl fileSize now
      (List.range (Int.tdiv (fileSize + chunkSize - 1) chunkSize).toNat) σ

/-- The per-server body of `ChunkAllocator::findOverloadedServers`: a
healthy server with load above 0.8 that stores at least one chunk is paired
with its least-recently-accessed chunk (`std::min_element` keeps the first
minimum; `getChunkMetadata` leaves the metadata default-valued for an
unknown chunk id). -/
def overloadedEntry (st : MasterState) (s : ServerMetadata) : Option (String × String) :=
  if 4/5 < calculateServerLoad s then
    match getChunksForServer st s.server_id with
    | [] => none
    | c :: cs => some (s.server_id,
        (cs.foldl (fun best x =>
          if ((alookup st.chunks x).getD default).last_accessed_time <
             ((alookup st.chunks best).getD default).last_accessed_time
          then x else best) c))
  else none

/-- `ChunkAllocator::findOverloadedServers`. -/
def findOverloadedServers (st : MasterState) : List (String × String) :=
  (getHealthyServers st).filterMap (overloadedEntry st)

/-- The local `mean` of `calculateClusterLoadVariance`. -/
def loadMean (st : MasterState) : ℚ :=
  ((getHealthyServers st).map calculateServerLoad).sum /
    (((getHealthyServers st).map calculateServerLoad).length : ℚ)

/-- The variance computed inside `calculateClusterLoadVariance` before its
final `sqrt` (0 when fewer than two healthy servers).  The function itself
returns `sqrt` of this; `shouldRebalance` compares that square root against
0.3, which (the variance being nonnegative) is the comparison of this value
against 0.09 — see `shouldRebalance_iff`. -/
def clusterLoadVarianceSq (st : MasterState) : ℚ :=
  if (getHealthyServers st).length < 2 then 0
  else
    (((getHealthyServers st).map calculateServerLoad).map
      (fun l => (l - loadMean st) * (l - loadMean st))).sum /
    (((getHealthyServers st).map calculateServerLoad).length : ℚ)

/-- `ChunkAllocator::shouldRebalance`: `sqrt(variance) > 0.3`, or some
overloaded server was found. -/
def shouldRebalance (st : MasterState) : Bool :=
  decide ((3/10 : ℚ) * (3/10) < clusterLoadVarianceSq st) ||
    !(findOverloadedServers st).isEmpty

/-- Well-formedness of the `servers_` map, maintained by `MetadataManager`:
`std::map` keys are unique, and every `ServerMetadata` value carries the
`server_id` it is keyed under (`registerServer` stores the request's
metadata under its own id and no mutation changes the field). -/
def ServersWF (st : MasterState) : Prop :=
  (st.servers.map Prod.fst).Nodup ∧ ∀ e ∈ st.servers, e.2.server_id = e.1

/-! ### Chunk storage (`src/chunkserver/chunk_storage.cpp`, `chunk_server.cpp`)

The on-disk state of one chunk server: the in-memory `stored_chunks_` set
and `chunk_checksums_` index, the data files and the `.meta` sidecars (both
keyed by `chunk_id`; the directory prefix is constant).  File-system
outcomes are oracles: `Utils::writeFile` opens the data file with a
truncating `std::ofstream` (`openOk` — when the open fails nothing is
created) and then writes, returning `file.good()`; a short write (`written`
bytes of the data) leaves the truncated file holding that prefix, and
`ChunkStorage::writeChunk` performs no cleanup on this path.
`saveChunkMetadata` success is the `metaOk` oracle, and the result of the
cleanup `Utils::deleteFile` on the sidecar-failure path is ignored by the
source, so whether it removed the data file is the `deleteOk` oracle. -/

structure SidecarMeta where
  checksum : String
  is_encrypted : Bool
  is_erasure_coded : Bool
  created_time : Int
deriving DecidableEq, Repr, Inhabited

structure CSState where
  stored_chunks : List String
  chunk_checksums : List (String × String)
  dataFiles : List (String × List Nat)
  metaFiles : List (String × SidecarMeta)
deriving DecidableEq, Repr

/-- `ChunkStorage::writeChunk`: checksum first; `Utils::writeFile` the data
file (truncating open creating the file, then the write — a failed write
returns `false` with the partial file left in place and no cleanup); write
the sidecar, attempting `Utils::deleteFile` on the data file when that
fails (the delete's result is ignored); update both in-memory indices only
on full success. -/
def csWriteChunk (st : CSState) (cid : String) (data : List Nat) (enc ec : Bool)
    (openOk : Bool) (written : Nat) (metaOk deleteOk : Bool) (now : Int) :
    Bool × CSState :=
  if !openOk then (false, st)
  else if written < data.length then
    (false, { st with dataFiles := aset st.dataFiles cid (data.take written) })
  else if !metaOk then
    (false,
      if deleteOk then
        { st with dataFiles := aerase (aset st.dataFiles cid (data.take written)) cid }
      else { st with dataFiles := aset st.dataFiles cid (data.take written) })
  else
    (true,
      { st with
        stored_chunks := insertS st.stored_chunks cid,
        chunk_checksums := aset st.chunk_checksums cid (sha256Hex data),
        dataFiles := aset st.dataFiles cid (data.take written),
        metaFiles := aset st.metaFiles cid ⟨sha256Hex data, enc, ec, now⟩ })

/-- The checksum `ChunkStorage::readChunk` verifies against: the in-memory
index first, then the sidecar (`loadChunkMetadata`). -/
def csRecordedChecksum (st : CSState) (cid : String) : Option String :=
  match alookup st.chunk_checksums cid with
  | some c => some c
  | none => (alookup st.metaFiles cid).map (fun m => m.checksum)

/-- `ChunkStorage::readChunk`: unknown chunk or unreadable file give the
empty vector; with a recorded checksum the bytes are returned only when
their SHA-256 matches it; with none recorded anywhere they are returned
unverified. -/
def csReadChunk (st : CSState) (cid : String) : List Nat :=
  if cid ∉ st.stored_chunks then []
  else
    let data := (alookup st.dataFiles cid).getD []
    if data = [] then []
    else
      match csRecordedChecksum st cid with
      | none => data
      | some exp => if sha256Hex data = exp then data else []

/-- `ChunkStorage::verifyChunkIntegrity`. -/
def csVerifyChunkIntegrity (st : CSState) (cid : String) : Bool :=
  if cid ∉ st.stored_chunks then false
  else
    let data := (alookup st.dataFiles cid).getD []
    if data = [] then false
    else
      match csRecordedChecksum st cid with
      | none => false
      | some exp => decide (sha256Hex data = exp)

structure WriteChunkRequest where
  chunk_id : String
  data : List Nat
  checksum : String
  is_encrypted : Bool
  is_erasure_coded : Bool
deriving DecidableEq, Repr

/-- `ChunkServer::WriteChunk`: recompute SHA-256 and reject a differing
supplied checksum before touching storage; otherwise delegate to
`ChunkStorage::writeChunk`. -/
def serverWriteChunk (st : CSState) (req : WriteChunkRequest)
    (openOk : Bool) (written : Nat) (metaOk deleteOk : Bool) (now : Int) :
    (Bool × String) × CSState :=
  if req.checksum ≠ "" ∧ sha256Hex req.data ≠ req.checksum then
    ((false, "Checksum mismatch"), st)
  else
    let r := csWriteChunk st req.chunk_id req.data req.is_encrypted
      req.is_erasure_coded openOk written metaOk deleteOk now
    if r.1 then ((true, "Chunk written successfully"), r.2)
    else ((false, "Failed to write chunk to storage"), r.2)

/-- `ChunkServer::ReadChunk`: `ChunkStorage::readChunk` (which already
verifies any recorded checksum), then the extra `verifyChunkIntegrity` pass
when `verify_integrity` is set; on success the bytes with their SHA-256. -/
def serverReadChunk (st : CSState) (cid : String) (verify : Bool) :
    Option (List Nat × String) :=
  let data := csReadChunk st cid
  if data = [] then none
  else if verify && !csVerifyChunkIntegrity st cid then none
  else some (data, sha256Hex data)

/-! ### Concrete states used by the counterexamples and witnesses -/

/-- A registered healthy server holding no chunks yet. -/
def hbServer : ServerMetadata :=
  { server_id := "s1", address := "127.0.0.1", port := 7001, total_space := 1000,
    free_space := 800, chunk_count := 0, cpu_usage := 0, memory_usage := 0,
    is_healthy := true, last_heartbeat := 0, stored_chunks := [] }

/-- Metadata of chunk `"c1"` placed on `"s1"` (as the allocator records it). -/
def hbChunkMeta : ChunkMetadata :=
  { chunk_id := "c1", size := 0, checksum := "", is_erasure_coded := false,
    erasure_group_id := "", erasure_block_index := 0, is_parity_block := false,
    server_locations := ["s1"], created_time := 0, last_accessed_time := 0 }

/-- Master state reached by `registerServer` then `addChunk`: chunk `"c1"`
on server `"s1"`, all three relation sides recorded. -/
def hbState0 : MasterState :=
  addChunk (registerServer ⟨[], [], [], []⟩ "s1" hbServer) "c1" hbChunkMeta

/-- A heartbeat from `"s1"` reporting an empty chunk inventory. -/
def hbReq : HeartbeatRequest :=
  { server_id := "s1", free_space := 500, chunk_count := 0, cpu_usage := 10,
    memory_usage := 10, stored_chunks := [] }

/-- The master state after `SendHeartbeat` processes `hbReq`. -/
def hbState1 : MasterState := (sendHeartbeatUpdate hbState0 hbReq 5).2

/-- A healthy server with composite load `1` (full disk, 100% cpu and
memory) that stores no chunk. -/
def olServer : ServerMetadata :=
  { server_id := "s1", address := "127.0.0.1", port := 7001, total_space := 10,
    free_space := 0, chunk_count := 0, cpu_usage := 100, memory_usage := 100,
    is_healthy := true, last_heartbeat := 0, stored_chunks := [] }

/-- A cluster whose only healthy server is `olServer`. -/
def olState : MasterState := ⟨[], [("s1", olServer)], [], [("s1", [])]⟩

/-- A chunk server already storing chunk `"c1"` with bytes `[1]`. -/
def wcState : CSState :=
  { stored_chunks := ["c1"], chunk_checksums := [("c1", sha256Hex [1])],
    dataFiles := [("c1", [1])],
    metaFiles := [("c1", { checksum := sha256Hex [1], is_encrypted := false,
                           is_erasure_coded := false, created_time := 0 })] }

/-- A `WriteChunk` request for `"c1"` whose supplied checksum is wrong. -/
def wcReq : WriteChunkRequest :=
  { chunk_id := "c1", data := [2], checksum := "bad", is_encrypted := false,
    is_erasure_coded := false }

/-- A chunk server storing chunk `"c"` with bytes `[7]` and its checksum
recorded in the in-memory index. -/
def rcState : CSState :=
  { stored_chunks := ["c"], chunk_checksums := [("c", sha256Hex [7])],
    dataFiles := [("c", [7])], metaFiles := [] }

/-- A network holding only block 0 of the erasure group `"g0"`, on `"s1"`. -/
def ecNet : Net := fun s cid =>
  if s = "s1" ∧ cid = "g0_block_0" then some ([1], sha256Hex [1]) else none

/-- The chunk list of an erasure-coded file with one `(k = 1, m = 1)` group:
block 0 lives on `"s1"`, block 1 on the unreachable `"s2"`. -/
def ecInfos : List (String × List String) :=
  [("g0_block_0", ["s1"]), ("g0_block_1", ["s2"])]

/-! ## Theorems -/

set_option maxRecDepth 1000000

/-- Two hex characters per byte. -/
theorem length_flatMap_byteToHex (bs : List Nat) :
    (bs.flatMap byteToHex).length = 2 * bs.length := by
  induction bs with
  | nil => rfl
  | cons b t ih => simp [List.flatMap_cons, byteToHex, ih]; ring

/-- `hexOfBytes` doubles the length. -/
theorem hexOfBytes_length (bs : List Nat) : (hexOfBytes bs).length = 2 * bs.length := by
  show (bs.flatMap byteToHex).length = 2 * bs.length
  exact length_flatMap_byteToHex bs

/-- C5 (code bug).  `CreateFile` stores the key minted by
`KeyManager::generateKey` = `Crypto::generateRandomKey` under
`file_id + "_key"`; that key is the 64-character hex rendering of 32 random
bytes, but `Crypto::encrypt` demands a key of size exactly `KEY_SIZE = 32`
and returns the empty vector otherwise.  So encrypting a slice under the
stored key never produces the claimed `IV ‖ ciphertext ‖ tag` blob: it
yields the empty vector (and `uploadFile` aborts), whatever the cipher, the
plaintext and the IV. -/
theorem encrypt_rejects_stored_key
    (aesGcm : String → List Nat → List Nat → List Nat × List Nat)
    (pt iv rb : List Nat) (hrb : rb.length = 32) :
    cryptoEncrypt aesGcm pt (keyManagerGenerateKey rb) iv = [] := by
  have hl : (keyManagerGenerateKey rb).length = 64 := by
    show (hexOfBytes rb).length = 64
    rw [hexOfBytes_length, hrb]
  unfold cryptoEncrypt
  rw [if_pos]
  rw [hl]
  decide

/-- Witness for `encrypt_rejects_stored_key` at 32 zero random bytes. -/
theorem encrypt_rejects_stored_key_witness :
    (List.replicate 32 0).length = 32 ∧
      cryptoEncrypt (fun _ _ _ => ([], [])) [1]
        (keyManagerGenerateKey (List.replicate 32 0)) [] = [] :=
  ⟨by decide, encrypt_rejects_stored_key _ [1] [] (List.replicate 32 0) (by decide)⟩

/-- C2 (code bug).  `encode` returns the data blocks verbatim in positions
`0..k-1`, but `decode` assumes every surviving block `i` equals row `i` of
the Vandermonde matrix times the data vector; the two agree only for the
parity rows.  Already for `k = 2, m = 1` and data `[0, 1]`, losing the one
data block `1` (a single loss, within the `m = 1` tolerance — the
availability has exactly `k = 2` true entries) makes `decode` return
`[143, 143]`, which (even truncated to the original size) is not the
original data.  The repo's own tests (`RecoveryFromSingleFailure`,
`RecoveryFromDoubleFailure` in `tests/erasure_coding_test.cpp`) assert that
such a loss is recovered exactly. -/
theorem rs_decode_corrupts_on_data_block_loss :
    ecDecode 2 1 (ecEncode 2 1 [0, 1]) [true, false, true] = .ok [143, 143] ∧
      removePadding [143, 143] 2 ≠ [0, 1] ∧
      [true, false, true].count true = 2 := by
  refine ⟨by rfl, by decide, by decide⟩

/-- Index-filter form of counting the available entries: the loop of
`decode` collects exactly the positions holding `true`. -/
theorem length_filter_range_getD (l : List Bool) :
    ((List.range l.length).filter (fun i => l.getD i false)).length = l.count true := by
  induction l with
  | nil => rfl
  | cons b t ih =>
    rw [List.length_cons, List.range_succ_eq_map]
    simp only [List.filter_cons, List.getD_cons_zero]
    have hmap : ((List.range t.length).map Nat.succ).filter (fun i => (b :: t).getD i false)
        = ((List.range t.length).filter (fun i => t.getD i false)).map Nat.succ := by
      rw [List.filter_map]
      rfl
    rcases Bool.eq_false_or_eq_true b with hb | hb <;> subst hb
    · rw [if_pos rfl, List.length_cons, hmap, List.length_map, ih, List.count_cons_self]
    · rw [if_neg (by simp), hmap, List.length_map, ih, List.count_cons_of_ne (by simp)]

/-- C3 (confirmed).  With fewer than `k` of the `k + m` blocks available,
`decode` signals an error (it never returns bytes), and `canDecode` returns
true exactly when at least `k` blocks are available. -/
theorem rs_decode_fails_below_k (k m : Nat) (blocks : List (List Nat))
    (avail : List Bool) (hlen : avail.length = k + m) (hc : avail.count true < k) :
    (∃ msg, ecDecode k m blocks avail = .error msg) ∧
      (∀ res, ecDecode k m blocks avail ≠ .ok res) ∧
      (∀ a : List Bool, canDecode k a = true ↔ k ≤ a.count true) := by
  have herr : ∃ msg, ecDecode k m blocks avail = .error msg := by
    unfold ecDecode
    by_cases hb : blocks.length ≠ k + m ∨ avail.length ≠ k + m
    · rw [if_pos hb]
      exact ⟨_, rfl⟩
    · rw [if_neg hb]
      have hidx : ((List.range (k + m)).filter (fun i => avail.getD i false)).length < k := by
        rw [← hlen, length_filter_range_getD]
        exact hc
      simp only [hidx, if_pos]
      exact ⟨_, rfl⟩
  refine ⟨herr, ?_, ?_⟩
  · intro res hres
    obtain ⟨msg, he⟩ := herr
    rw [he] at hres
    exact Except.noConfusion hres
  · intro a
    simp [canDecode]

/-- Witness for `rs_decode_fails_below_k`: `k = 2, m = 1`, one block left. -/
theorem rs_decode_fails_below_k_witness :
    ([true, false, false] : List Bool).length = 2 + 1 ∧
      ([true, false, false] : List Bool).count true < 2 ∧
      ((∃ msg, ecDecode 2 1 [[0], [1], [1]] [true, false, false] = .error msg) ∧
        (∀ res, ecDecode 2 1 [[0], [1], [1]] [true, false, false] ≠ .ok res) ∧
        (∀ a : List Bool, canDecode 2 a = true ↔ 2 ≤ a.count true)) :=
  ⟨by decide, by decide,
    rs_decode_fails_below_k 2 1 [[0], [1], [1]] [true, false, false] (by decide) (by decide)⟩

/-- C6 (code bug).  From the reachable state `hbState0` (register `"s1"`,
then record chunk `"c1"` on it — all three relation sides agree), a
heartbeat from `"s1"` reporting an empty inventory is processed by
`SendHeartbeat` through `updateServerMetadata`: it wholesale-replaces the
server metadata (clearing `stored_chunks`) without touching
`chunk_to_servers_` / `server_to_chunks_` or the chunk's
`server_locations`.  The mutation completes (returns success), and the
three relation sides disagree afterwards, violating the consistency
invariant the metadata manager maintains everywhere else. -/
theorem heartbeat_breaks_relation_consistency :
    Consistent hbState0 ∧ (sendHeartbeatUpdate hbState0 hbReq 5).1 = true ∧
      ¬ Consistent hbState1 := by
  refine ⟨by decide, by rfl, by decide⟩

/-- C8 (counterexample).  The cluster `olState` has a single healthy server
of composite load `1 > 0.8` (and population standard deviation `0 ≤ 0.3`),
so the claim says `shouldRebalance` is true; but the server stores no chunk,
`findOverloadedServers` skips it, and `shouldRebalance` returns false. -/
theorem shouldRebalance_misses_chunkless_overloaded_server :
    shouldRebalance olState = false ∧ olServer ∈ getHealthyServers olState ∧
      4/5 < calculateServerLoad olServer ∧ getChunksForServer olState "s1" = [] := by
  have hhealthy : getHealthyServers olState = [olServer] := by
    simp [getHealthyServers, olState, olServer]
  have hload : (4/5 : ℚ) < calculateServerLoad olServer := by
    norm_num [calculateServerLoad, olServer]
  have hchunks : getChunksForServer olState "s1" = [] := by
    simp [getChunksForServer, olState, alookup]
  have hentry : overloadedEntry olState olServer = none := by
    rw [overloadedEntry, if_pos hload]
    have h1 : getChunksForServer olState olServer.server_id = [] := hchunks
    rw [h1]
  have hover : findOverloadedServers olState = [] := by
    rw [findOverloadedServers, hhealthy]
    simp [List.filterMap_cons, hentry]
  have hvar : clusterLoadVarianceSq olState = 0 := by
    rw [clusterLoadVarianceSq, if_pos]
    rw [hhealthy]
    decide
  refine ⟨?_, by rw [hhealthy]; exact List.mem_singleton.mpr rfl, hload, hchunks⟩
  rw [shouldRebalance, hover, hvar]
  simp only [List.isEmpty_nil, Bool.not_true, Bool.or_false]
  rw [decide_eq_false]
  norm_num

/-- The variance before the square root is nonnegative. -/
theorem clusterLoadVarianceSq_nonneg (st : MasterState) : 0 ≤ clusterLoadVarianceSq st := by
  rw [clusterLoadVarianceSq]
  split
  · exact le_refl 0
  · apply div_nonneg
    · apply List.sum_nonneg
      intro x hx
      obtain ⟨l, -, rfl⟩ := List.mem_map.mp hx
      exact mul_self_nonneg _
    · positivity

/-- A server contributes no overloaded entry exactly when its load is not
above 0.8 or it stores no chunk. -/
theorem overloadedEntry_eq_none_iff (st : MasterState) (s : ServerMetadata) :
    overloadedEntry st s = none ↔
      ¬(4/5 < calculateServerLoad s ∧ getChunksForServer st s.server_id ≠ []) := by
  rw [overloadedEntry]
  by_cases hl : (4 : ℚ)/5 < calculateServerLoad s
  · rw [if_pos hl]
    cases hc : getChunksForServer st s.server_id with
    | nil => simp [hl, hc]
    | cons c cs => simp [hl, hc]
  · rw [if_neg hl]
    simp [hl]

/-- `findOverloadedServers` is nonempty exactly when some healthy server
with load above 0.8 stores at least one chunk. -/
theorem findOverloadedServers_ne_nil (st : MasterState) :
    findOverloadedServers st ≠ [] ↔
      ∃ s ∈ getHealthyServers st, 4/5 < calculateServerLoad s ∧
        getChunksForServer st s.server_id ≠ [] := by
  rw [findOverloadedServers, Ne, List.filterMap_eq_nil_iff]
  constructor
  · intro h
    by_contra hcon
    push_neg at hcon
    refine h (fun s hs => (overloadedEntry_eq_none_iff st s).mpr ?_)
    rintro ⟨h1, h2⟩
    exact h2 (hcon s hs h1)
  · rintro ⟨s, hs, h1, h2⟩ hall
    exact ((overloadedEntry_eq_none_iff st s).mp (hall s hs)) ⟨h1, h2⟩

/-- C8 (amended, proved).  `shouldRebalance` returns true iff the population
standard deviation of the healthy servers' composite loads exceeds 0.30
(computed as 0 when fewer than two servers are healthy), or some healthy
server whose composite load exceeds 0.80 stores at least one chunk.  The
amendment that `olState` forces: an overloaded server with an empty chunk
list does not trigger rebalancing. -/
theorem shouldRebalance_iff (st : MasterState) :
    shouldRebalance st = true ↔
      ((3 : ℝ)/10 < Real.sqrt (clusterLoadVarianceSq st) ∨
        ∃ s ∈ getHealthyServers st, 4/5 < calculateServerLoad s ∧
          getChunksForServer st s.server_id ≠ []) := by
  have hsqrt : ((3 : ℝ)/10 < Real.sqrt (clusterLoadVarianceSq st)) ↔
      ((3/10 : ℚ) * (3/10) < clusterLoadVarianceSq st) := by
    rw [Real.lt_sqrt (by norm_num)]
    rw [show ((3 : ℝ)/10) ^ 2 = (((3/10 : ℚ) * (3/10) : ℚ) : ℝ) by push_cast; ring]
    exact_mod_cast Iff.rfl
  rw [shouldRebalance, Bool.or_eq_true, decide_eq_true_eq, hsqrt]
  constructor
  · rintro (h | h)
    · exact Or.inl h
    · refine Or.inr ((findOverloadedServers_ne_nil st).mp ?_)
      intro hnil
      rw [hnil] at h
      exact Bool.noConfusion h
  · rintro (h | h)
    · exact Or.inl h
    · refine Or.inr ?_
      have := (findOverloadedServers_ne_nil st).mpr h
      cases hfo : findOverloadedServers st with
      | nil => exact absurd hfo this
      | cons a l => rfl

/-- The append loop of `assembleChunks`, generalized over the accumulator. -/
theorem foldl_append_eq (l : List (List Nat)) (a : List Nat) :
    l.foldl (fun acc c => acc ++ c) a = a ++ l.flatten := by
  induction l generalizing a with
  | nil => simp
  | cons c t ih => simp [ih, List.append_assoc]

/-- `assembleChunks` concatenates. -/
theorem assembleChunks_eq_flatten (l : List (List Nat)) : assembleChunks l = l.flatten := by
  rw [assembleChunks, foldl_append_eq]
  rfl

/-- One step of the splitting loop: first chunk, then the split of the rest. -/
theorem splitFileIntoChunks_cons (cs : Nat) (d : List Nat) (hcs : 0 < cs) (hd : d ≠ []) :
    splitFileIntoChunks cs d = d.take cs :: splitFileIntoChunks cs (d.drop cs) := by
  have hlen : 0 < d.length := List.length_pos.mpr hd
  rw [splitFileIntoChunks, splitFileIntoChunks]
  have hn : (d.length + cs - 1) / cs = (d.length - 1) / cs + 1 := by
    rw [show d.length + cs - 1 = (d.length - 1) + cs by omega, Nat.add_div_right _ hcs]
  have hn2 : ((d.drop cs).length + cs - 1) / cs = (d.length - 1) / cs := by
    rw [List.length_drop]
    by_cases hle : d.length ≤ cs
    · rw [show d.length - cs = 0 by omega]
      rw [Nat.div_eq_of_lt (by omega), Nat.div_eq_of_lt (by omega)]
    · rw [show d.length - cs + cs - 1 = (d.length - cs - 1) + cs by omega,
        Nat.add_div_right _ hcs,
        show d.length - 1 = (d.length - cs - 1) + cs by omega,
        Nat.add_div_right _ hcs]
  rw [hn, hn2, List.range_succ_eq_map, List.map_cons, List.map_map]
  congr 1
  · simp
  · apply List.map_congr_left
    intro i hi
    simp only [Function.comp_apply]
    rw [List.drop_drop]
    congr 2
    rw [Nat.succ_mul]
    ring

/-- Splitting then concatenating reproduces the input byte-for-byte. -/
theorem splitFileIntoChunks_flatten (cs : Nat) (hcs : 0 < cs) (d : List Nat) :
    (splitFileIntoChunks cs d).flatten = d := by
  have H : ∀ n, ∀ d : List Nat, d.length ≤ n → (splitFileIntoChunks cs d).flatten = d := by
    intro n
    induction n with
    | zero =>
      intro d hd
      have hnil : d = [] := List.eq_nil_of_length_eq_zero (by omega)
      subst hnil
      rw [splitFileIntoChunks]
      rw [show (List.length ([] : List Nat) + cs - 1) / cs = 0 from Nat.div_eq_of_lt (by simp; omega)]
      rfl
    | succ n ih =>
      intro d hd
      by_cases hdn : d = []
      · subst hdn
        rw [splitFileIntoChunks]
        rw [show (List.length ([] : List Nat) + cs - 1) / cs = 0 from Nat.div_eq_of_lt (by simp; omega)]
        rfl
      · rw [splitFileIntoChunks_cons cs d hcs hdn, List.flatten_cons]
        rw [ih (d.drop cs) (by
          rw [List.length_drop]
          have := List.length_pos.mpr hdn
          omega)]
        exact List.take_append_drop cs d
  exact H d.length d le_rfl

/-- Every chunk produced by the splitter is nonempty. -/
theorem splitFileIntoChunks_ne_nil (cs : Nat) (hcs : 0 < cs) (d : List Nat) :
    ∀ c ∈ splitFileIntoChunks cs d, c ≠ [] := by
  intro c hc
  rw [splitFileIntoChunks] at hc
  obtain ⟨i, hi, rfl⟩ := List.mem_map.mp hc
  rw [List.mem_range] at hi
  have hq : ((d.length + cs - 1) / cs) * cs ≤ d.length + cs - 1 := Nat.div_mul_le_self _ cs
  have h1 : (i + 1) * cs ≤ ((d.length + cs - 1) / cs) * cs :=
    Nat.mul_le_mul_right cs (by omega)
  have h2 : i * cs + cs ≤ d.length + cs - 1 := by
    rw [← Nat.succ_mul]
    exact le_trans h1 hq
  have hlt : i * cs < d.length := by omega
  apply List.ne_nil_of_length_pos
  rw [List.length_take, List.length_drop]
  omega

/-- `downloadChunk` from the single-server store succeeds on a stored chunk
(the advertised checksum is the SHA-256 of the stored bytes). -/
theorem downloadChunk_netOfStore (store : List (String × List Nat)) (cid : String)
    (c : List Nat) (h : alookup store cid = some c) :
    downloadChunk (netOfStore store) cid ["srv"] = c := by
  simp [downloadChunk, netOfStore, h]

/-- The chunk loop of `downloadFile` over the single-server store: every
chunk of the recipe is fetched back verbatim. -/
theorem downloadFileGo_netOfStore (store : List (String × List Nat)) :
    ∀ (ps : List (String × List Nat)) (acc : List (List Nat)),
      (∀ p ∈ ps, alookup store p.1 = some p.2 ∧ p.2 ≠ []) →
      downloadFileGo (netOfStore store) (ps.map (fun p => (p.1, ["srv"]))) acc =
        some (acc ++ ps.map Prod.snd) := by
  intro ps
  induction ps with
  | nil =>
    intro acc _
    simp [downloadFileGo]
  | cons p t ih =>
    intro acc h
    obtain ⟨h1, h2⟩ := h p (List.mem_cons_self p t)
    rw [List.map_cons]
    simp only [downloadFileGo]
    rw [downloadChunk_netOfStore store p.1 p.2 h1, if_neg h2,
      ih (acc ++ [p.2]) (fun q hq => h q (List.mem_cons_of_mem _ hq)), List.map_cons]
    simp

/-- With distinct chunk ids, looking a pair of the store up finds its own
bytes. -/
theorem alookup_zip_of_nodup :
    ∀ (ids : List String) (chunks : List (List Nat)), ids.Nodup →
      ∀ p ∈ ids.zip chunks, alookup (ids.zip chunks) p.1 = some p.2 := by
  intro ids
  induction ids with
  | nil =>
    intro chunks _ p hp
    simp [List.zip] at hp
  | cons i it ih =>
    intro chunks hnd p hp
    cases chunks with
    | nil => simp at hp
    | cons c ct =>
      rw [List.zip_cons_cons] at hp
      rcases List.mem_cons.mp hp with rfl | hmem
      · simp [alookup]
      · have hne : i ≠ p.1 := by
          intro he
          have h1 : p.1 ∈ it := (List.of_mem_zip (show (p.1, p.2) ∈ it.zip ct from hmem)).1
          exact (List.nodup_cons.mp hnd).1 (he ▸ h1)
        rw [List.zip_cons_cons, show alookup ((i, c) :: it.zip ct) p.1
            = alookup (it.zip ct) p.1 from by simp [alookup, hne]]
        exact ih ct (List.nodup_cons.mp hnd).2 p hmem

/-- C1 (confirmed).  A completed file is split into `CHUNK_SIZE`-byte chunks
whose write stores the bytes verbatim under the recipe's (distinct) chunk
ids; downloading reads every chunk back (its body verifying against the
advertised SHA-256), assembles them in order, and reproduces the input
byte-for-byte — so the downloaded bytes' SHA-256 equals the original's. -/
theorem uploaded_file_roundtrip (cs : Nat) (d : List Nat) (ids : List String)
    (hcs : 0 < cs) (_hd : d ≠ []) (hnd : ids.Nodup)
    (hlen : ids.length = (splitFileIntoChunks cs d).length) :
    assembleChunks (splitFileIntoChunks cs d) = d ∧
      downloadFile (netOfStore (uploadStore ids (splitFileIntoChunks cs d)))
        (ids.map (fun i => (i, ["srv"]))) = some d ∧
      ∀ out, downloadFile (netOfStore (uploadStore ids (splitFileIntoChunks cs d)))
        (ids.map (fun i => (i, ["srv"]))) = some out → sha256Hex out = sha256Hex d := by
  have hassm : assembleChunks (splitFileIntoChunks cs d) = d := by
    rw [assembleChunks_eq_flatten, splitFileIntoChunks_flatten cs hcs d]
  have hmap1 : ids.map (fun i => (i, ["srv"])) =
      (ids.zip (splitFileIntoChunks cs d)).map (fun p => (p.1, ["srv"])) := by
    rw [show (fun p : String × List Nat => (p.1, ["srv"])) =
          (fun i : String => (i, ["srv"])) ∘ Prod.fst from rfl, ← List.map_map,
      List.map_fst_zip _ _ (le_of_eq hlen)]
  have hdl : downloadFile (netOfStore (uploadStore ids (splitFileIntoChunks cs d)))
      (ids.map (fun i => (i, ["srv"]))) = some d := by
    rw [downloadFile, hmap1, uploadStore,
      downloadFileGo_netOfStore (ids.zip (splitFileIntoChunks cs d))
        (ids.zip (splitFileIntoChunks cs d)) []
        (fun p hp => ⟨alookup_zip_of_nodup ids (splitFileIntoChunks cs d) hnd p hp,
          splitFileIntoChunks_ne_nil cs hcs d p.2
            (List.of_mem_zip (show (p.1, p.2) ∈ _ from hp)).2⟩)]
    rw [List.map_snd_zip _ _ (le_of_eq hlen.symm)]
    simp [hassm]
  refine ⟨hassm, hdl, fun out hout => ?_⟩
  rw [hdl] at hout
  rw [← Option.some.inj hout]

/-- Witness for `uploaded_file_roundtrip`: a 3-byte file, 2-byte chunks. -/
theorem uploaded_file_roundtrip_witness :
    (0 < 2 ∧ ([1, 2, 3] : List Nat) ≠ [] ∧ (["a", "b"] : List String).Nodup ∧
      (["a", "b"] : List String).length = (splitFileIntoChunks 2 [1, 2, 3]).length) ∧
      (assembleChunks (splitFileIntoChunks 2 [1, 2, 3]) = [1, 2, 3] ∧
        downloadFile (netOfStore (uploadStore ["a", "b"] (splitFileIntoChunks 2 [1, 2, 3])))
          ((["a", "b"] : List String).map (fun i => (i, ["srv"]))) = some [1, 2, 3] ∧
        ∀ out, downloadFile (netOfStore (uploadStore ["a", "b"] (splitFileIntoChunks 2 [1, 2, 3])))
          ((["a", "b"] : List String).map (fun i => (i, ["srv"]))) = some out →
            sha256Hex out = sha256Hex [1, 2, 3]) :=
  ⟨⟨by decide, by decide, by decide, by decide⟩,
    uploaded_file_roundtrip 2 [1, 2, 3] ["a", "b"] (by decide) (by decide) (by decide) (by decide)⟩

/-- C4 (counterexample).  For an erasure-coded file with one `(k = 1, m = 1)`
group, block 0 is retrievable (so only `1 = m` block is lost and `k = 1`
blocks survive — the claim says the download must succeed by
reconstruction), yet `downloadFile` returns failure: it downloads every
listed chunk independently and never decodes. -/
theorem downloadFile_fails_with_k_blocks_available :
    downloadFile ecNet ecInfos = none ∧
      downloadChunk ecNet "g0_block_0" ["s1"] = [1] := by
  exact ⟨by rfl, by rfl⟩

/-- The chunk loop succeeds exactly when every chunk downloads nonempty,
and then returns the accumulated bodies in order. -/
theorem downloadFileGo_eq_some_iff (net : Net) :
    ∀ (infos : List (String × List String)) (acc : List (List Nat)) (out : List (List Nat)),
      downloadFileGo net infos acc = some out ↔
        ((∀ p ∈ infos, downloadChunk net p.1 p.2 ≠ []) ∧
          out = acc ++ infos.map (fun p => downloadChunk net p.1 p.2)) := by
  intro infos
  induction infos with
  | nil =>
    intro acc out
    simp [downloadFileGo, eq_comm]
  | cons p t ih =>
    intro acc out
    obtain ⟨cid, srvs⟩ := p
    simp only [downloadFileGo]
    by_cases hdc : downloadChunk net cid srvs = []
    · rw [if_pos hdc]
      simp only [List.mem_cons]
      constructor
      · intro h
        exact Option.noConfusion h
      · rintro ⟨hall, -⟩
        exact absurd hdc (hall (cid, srvs) (Or.inl rfl))
    · rw [if_neg hdc, ih]
      constructor
      · rintro ⟨hall, rfl⟩
        refine ⟨?_, by simp⟩
        intro q hq
        rcases List.mem_cons.mp hq with rfl | hq2
        · exact hdc
        · exact hall q hq2
      · rintro ⟨hall, rfl⟩
        refine ⟨fun q hq => hall q (List.mem_cons_of_mem _ hq), by simp⟩

/-- C4 (amended, proved).  `downloadFile` succeeds iff every chunk listed in
the file info — for an erasure-coded file, every single one of the `k+m`
blocks — is retrievable (nonempty) from some server, and then it returns
the plain concatenation of the chunk bodies, with no erasure decoding; a
single unavailable block fails the download regardless of how many blocks
of its group survive. -/
theorem downloadFile_eq_some_iff (net : Net) (infos : List (String × List String))
    (b : List Nat) :
    downloadFile net infos = some b ↔
      ((∀ p ∈ infos, downloadChunk net p.1 p.2 ≠ []) ∧
        b = assembleChunks (infos.map (fun p => downloadChunk net p.1 p.2))) := by
  rw [downloadFile]
  constructor
  · intro h
    obtain ⟨out, hgo, rfl⟩ := Option.map_eq_some'.mp h
    obtain ⟨hall, rfl⟩ := (downloadFileGo_eq_some_iff net infos [] out).mp hgo
    exact ⟨hall, by simp⟩
  · rintro ⟨hall, rfl⟩
    rw [(downloadFileGo_eq_some_iff net infos []
      (infos.map (fun p => downloadChunk net p.1 p.2))).mpr ⟨hall, by simp⟩]
    rfl

/-- C9 (counterexample).  Chunk `"c1"` is already stored with bytes `[1]`;
a `WriteChunk` for `"c1"` with a wrong supplied checksum fails (rejected
before storing anything), but a data file for the chunk remains on disk —
the old one — contradicting the claim that after every failed `WriteChunk`
no data file for the chunk remains. -/
theorem write_mismatch_leaves_old_data_file :
    (wcReq.checksum ≠ "" ∧ sha256Hex wcReq.data ≠ wcReq.checksum) ∧
      (serverWriteChunk wcState wcReq true 1 true true 0).1.1 = false ∧
      alookup (serverWriteChunk wcState wcReq true 1 true true 0).2.dataFiles "c1"
        = some [1] := by
  refine ⟨⟨by decide, by decide⟩, by rfl, by rfl⟩

/-- `ChunkStorage::writeChunk` when the `std::ofstream` open fails: nothing
was created, the state is untouched. -/
theorem csWriteChunk_openFail_eq (st : CSState) (cid : String) (data : List Nat)
    (enc ec : Bool) (written : Nat) (metaOk deleteOk : Bool) (now : Int) :
    csWriteChunk st cid data enc ec false written metaOk deleteOk now = (false, st) := rfl

/-- `ChunkStorage::writeChunk` when the data write is short: `writeChunk`
returns `false` with the truncated data file holding the written prefix and
no cleanup. -/
theorem csWriteChunk_partial_eq (st : CSState) (cid : String) (data : List Nat)
    (enc ec : Bool) (written : Nat) (metaOk deleteOk : Bool) (now : Int)
    (hw : written < data.length) :
    csWriteChunk st cid data enc ec true written metaOk deleteOk now =
      (false, { st with dataFiles := aset st.dataFiles cid (data.take written) }) := by
  rw [csWriteChunk]
  simp only [Bool.not_true, Bool.false_eq_true, if_false]
  rw [if_pos hw]

/-- `ChunkStorage::writeChunk` when the sidecar save fails: the data file
was written, `Utils::deleteFile` is attempted with its result ignored. -/
theorem csWriteChunk_metaFail_eq (st : CSState) (cid : String) (data : List Nat)
    (enc ec : Bool) (written : Nat) (deleteOk : Bool) (now : Int)
    (hw : ¬written < data.length) :
    csWriteChunk st cid data enc ec true written false deleteOk now =
      (false,
        if deleteOk then
          { st with dataFiles := aerase (aset st.dataFiles cid (data.take written)) cid }
        else { st with dataFiles := aset st.dataFiles cid (data.take written) }) := by
  rw [csWriteChunk]
  simp only [Bool.not_true, Bool.false_eq_true, if_false]
  rw [if_neg hw]
  rfl

/-- `ChunkStorage::writeChunk` on full success: data file, sidecar and both
in-memory indices updated. -/
theorem csWriteChunk_success_eq (st : CSState) (cid : String) (data : List Nat)
    (enc ec : Bool) (written : Nat) (deleteOk : Bool) (now : Int)
    (hw : ¬written < data.length) :
    csWriteChunk st cid data enc ec true written true deleteOk now =
      (true,
        { st with
          stored_chunks := insertS st.stored_chunks cid,
          chunk_checksums := aset st.chunk_checksums cid (sha256Hex data),
          dataFiles := aset st.dataFiles cid (data.take written),
          metaFiles := aset st.metaFiles cid ⟨sha256Hex data, enc, ec, now⟩ }) := by
  rw [csWriteChunk]
  simp only [Bool.not_true, Bool.false_eq_true, if_false]
  rw [if_neg hw]

/-- C9 (amended, proved).  A `WriteChunk` that supplies a checksum differing
from the SHA-256 of the data is rejected with the storage state fully
untouched; after every failed `WriteChunk` the in-memory stored-chunk set
and checksum index are unchanged (so the chunk never becomes visible to
reads); but data files are not cleaned up: when the request passed the
checksum gate and the truncating `std::ofstream` opened, a short data write
leaves the data file holding exactly the written prefix — created if it did
not exist, with the spec's promised removal of the partial file never
performed. -/
theorem serverWriteChunk_failure_invisible (st : CSState) (req : WriteChunkRequest)
    (openOk : Bool) (written : Nat) (metaOk deleteOk : Bool) (now : Int)
    (res : Bool × String) (st' : CSState)
    (h : serverWriteChunk st req openOk written metaOk deleteOk now = (res, st'))
    (hfail : res.1 = false) :
    st'.stored_chunks = st.stored_chunks ∧ st'.chunk_checksums = st.chunk_checksums ∧
      (req.checksum ≠ "" ∧ sha256Hex req.data ≠ req.checksum → st' = st) ∧
      (¬(req.checksum ≠ "" ∧ sha256Hex req.data ≠ req.checksum) → openOk = true →
        written < req.data.length →
        st'.dataFiles = aset st.dataFiles req.chunk_id (req.data.take written)) := by
  rw [serverWriteChunk] at h
  by_cases hmis : req.checksum ≠ "" ∧ sha256Hex req.data ≠ req.checksum
  · rw [if_pos hmis] at h
    have hst : st = st' := congrArg Prod.snd h
    subst hst
    exact ⟨rfl, rfl, fun _ => rfl, fun hn => absurd hmis hn⟩
  · rw [if_neg hmis] at h
    cases openOk with
    | false =>
      rw [csWriteChunk_openFail_eq] at h
      have h2 : ((false, "Failed to write chunk to storage"), st) = (res, st') := by
        rw [← h]
        rfl
      have hst : st = st' := congrArg Prod.snd h2
      subst hst
      exact ⟨rfl, rfl, fun hm => absurd hm hmis, fun _ hopen _ => Bool.noConfusion hopen⟩
    | true =>
      by_cases hw : written < req.data.length
      · rw [csWriteChunk_partial_eq st req.chunk_id req.data req.is_encrypted
          req.is_erasure_coded written metaOk deleteOk now hw] at h
        have h2 : ((false, "Failed to write chunk to storage"),
            { st with dataFiles := aset st.dataFiles req.chunk_id (req.data.take written) })
            = (res, st') := by
          rw [← h]
          rfl
        have hst := congrArg Prod.snd h2
        subst hst
        exact ⟨rfl, rfl, fun hm => absurd hm hmis, fun _ _ _ => rfl⟩
      · cases metaOk with
        | false =>
          rw [csWriteChunk_metaFail_eq st req.chunk_id req.data req.is_encrypted
            req.is_erasure_coded written deleteOk now hw] at h
          have h2 : ((false, "Failed to write chunk to storage"),
              if deleteOk then
                { st with dataFiles := aerase (aset st.dataFiles req.chunk_id (req.data.take written)) req.chunk_id }
              else
                { st with dataFiles := aset st.dataFiles req.chunk_id (req.data.take written) })
              = (res, st') := by
            rw [← h]
            rfl
          have hst := congrArg Prod.snd h2
          subst hst
          cases deleteOk with
          | false => exact ⟨rfl, rfl, fun hm => absurd hm hmis, fun _ _ hww => absurd hww hw⟩
          | true => exact ⟨rfl, rfl, fun hm => absurd hm hmis, fun _ _ hww => absurd hww hw⟩
        | true =>
          rw [csWriteChunk_success_eq st req.chunk_id req.data req.is_encrypted
            req.is_erasure_coded written deleteOk now hw] at h
          have h2 : ((true, "Chunk written successfully"),
              { st with
                stored_chunks := insertS st.stored_chunks req.chunk_id,
                chunk_checksums := aset st.chunk_checksums req.chunk_id (sha256Hex req.data),
                dataFiles := aset st.dataFiles req.chunk_id (req.data.take written),
                metaFiles := aset st.metaFiles req.chunk_id ⟨sha256Hex req.data, req.is_encrypted, req.is_erasure_coded, now⟩ })
              = (res, st') := by
            rw [← h]
            rfl
          have hres : (true, "Chunk written successfully") = res := congrArg Prod.fst h2
          rw [← hres] at hfail
          exact Bool.noConfusion hfail

/-- Witness for `serverWriteChunk_failure_invisible`: a mismatching write on
the empty storage state. -/
theorem serverWriteChunk_failure_invisible_witness :
    (serverWriteChunk ⟨[], [], [], []⟩
        ⟨"c", [1], "x", false, false⟩ true 0 true true 0 =
      ((false, "Checksum mismatch"), ⟨[], [], [], []⟩)) ∧
      ((⟨[], [], [], []⟩ : CSState).stored_chunks = ([] : List String) ∧
        (⟨[], [], [], []⟩ : CSState).chunk_checksums = ([] : List (String × String)) ∧
        (("x" : String) ≠ "" ∧ sha256Hex [1] ≠ "x" →
          (⟨[], [], [], []⟩ : CSState) = ⟨[], [], [], []⟩) ∧
        (¬(("x" : String) ≠ "" ∧ sha256Hex [1] ≠ "x") → true = true →
          0 < ([1] : List Nat).length →
          (⟨[], [], [], []⟩ : CSState).dataFiles =
            aset ([] : List (String × List Nat)) "c" (([1] : List Nat).take 0))) := by
  refine ⟨by rfl, ?_⟩
  exact serverWriteChunk_failure_invisible ⟨[], [], [], []⟩ ⟨"c", [1], "x", false, false⟩
    true 0 true true 0 (false, "Checksum mismatch") ⟨[], [], [], []⟩ (by rfl) rfl

/-- `ChunkStorage::readChunk` only hands out bytes matching a recorded
checksum. -/
theorem csReadChunk_matches_recorded (st : CSState) (cid : String)
    (hne : csReadChunk st cid ≠ []) (exp : String)
    (hexp : csRecordedChecksum st cid = some exp) :
    sha256Hex (csReadChunk st cid) = exp := by
  rw [csReadChunk] at hne ⊢
  by_cases hmem : cid ∉ st.stored_chunks
  · rw [if_pos hmem] at hne
    exact absurd rfl hne
  · rw [if_neg hmem] at hne ⊢
    by_cases hdata : (alookup st.dataFiles cid).getD [] = []
    · rw [if_pos hdata] at hne
      exact absurd rfl hne
    · rw [if_neg hdata] at hne ⊢
      rw [hexp] at hne ⊢
      have hne2 : (if sha256Hex ((alookup st.dataFiles cid).getD []) = exp
          then (alookup st.dataFiles cid).getD [] else []) ≠ [] := hne
      show sha256Hex (if sha256Hex ((alookup st.dataFiles cid).getD []) = exp
          then (alookup st.dataFiles cid).getD [] else []) = exp
      by_cases hsha : sha256Hex ((alookup st.dataFiles cid).getD []) = exp
      · rw [if_pos hsha]
        exact hsha
      · rw [if_neg hsha] at hne2
        exact absurd rfl hne2

/-- C10 (confirmed).  Whenever `ReadChunk` succeeds with bytes `d` — with
`verify_integrity` set or not — and a checksum is recorded for the chunk
(in the in-memory index, or failing that in the sidecar), the SHA-256 of
`d` equals that recorded checksum; the response checksum is the SHA-256 of
the returned bytes, and the bytes are nonempty. -/
theorem serverReadChunk_verifies (st : CSState) (cid : String) (verify : Bool)
    (d : List Nat) (ck : String)
    (h : serverReadChunk st cid verify = some (d, ck)) :
    d ≠ [] ∧ ck = sha256Hex d ∧
      ∀ exp, csRecordedChecksum st cid = some exp → sha256Hex d = exp := by
  rw [serverReadChunk] at h
  by_cases hdd : csReadChunk st cid = []
  · rw [if_pos hdd] at h
    exact Option.noConfusion h
  · rw [if_neg hdd] at h
    by_cases hv : (verify && !csVerifyChunkIntegrity st cid) = true
    · rw [if_pos hv] at h
      exact Option.noConfusion h
    · rw [if_neg hv] at h
      have h1 : csReadChunk st cid = d := congrArg Prod.fst (Option.some.inj h)
      have h2 : sha256Hex (csReadChunk st cid) = ck := congrArg Prod.snd (Option.some.inj h)
      subst h1
      exact ⟨hdd, h2.symm, fun exp hexp => csReadChunk_matches_recorded st cid hdd exp hexp⟩

/-- Witness for `serverReadChunk_verifies`: reading `"c"` from `rcState`
(with `verify_integrity = false`). -/
theorem serverReadChunk_verifies_witness :
    serverReadChunk rcState "c" false = some ([7], sha256Hex [7]) ∧
      (([7] : List Nat) ≠ [] ∧ sha256Hex [7] = sha256Hex [7] ∧
        ∀ exp, csRecordedChecksum rcState "c" = some exp → sha256Hex [7] = exp) :=
  ⟨by rfl, serverReadChunk_verifies rcState "c" false [7] (sha256Hex [7]) (by rfl)⟩

/-- A successful `alookup` exhibits a member of the association list. -/
theorem alookup_mem {α : Type} (m : List (String × α)) (k : String) (v : α)
    (h : alookup m k = some v) : (k, v) ∈ m := by
  induction m with
  | nil => exact Option.noConfusion h
  | cons e rest ih =>
      obtain ⟨k', v'⟩ := e
      rw [alookup] at h
      by_cases hk : k' = k
      · rw [if_pos hk] at h
        have hv : v' = v := Option.some.inj h
        subst hk; subst hv
        exact List.mem_cons_self _ _
      · rw [if_neg hk] at h
        exact List.mem_cons_of_mem _ (ih h)

/-- Every entry of `aset m k v` is an old entry or the new pair. -/
theorem mem_aset {α : Type} (m : List (String × α)) (k : String) (v : α)
    (e : String × α) (h : e ∈ aset m k v) : e ∈ m ∨ e = (k, v) := by
  induction m with
  | nil =>
      rw [aset] at h
      right
      rcases List.mem_cons.mp h with h1 | h1
      · exact h1
      · exact absurd h1 (List.not_mem_nil e)
  | cons e' rest ih =>
      obtain ⟨k', v'⟩ := e'
      rw [aset] at h
      by_cases hk : k' = k
      · rw [if_pos hk] at h
        rcases List.mem_cons.mp h with h1 | h1
        · exact Or.inr h1
        · exact Or.inl (List.mem_cons_of_mem _ h1)
      · rw [if_neg hk] at h
        rcases List.mem_cons.mp h with h1 | h1
        · exact Or.inl (h1 ▸ List.mem_cons_self _ _)
        · rcases ih h1 with h2 | h2
          · exact Or.inl (List.mem_cons_of_mem _ h2)
          · exact Or.inr h2

/-- Every key of `aset m k v` is an old key or `k`. -/
theorem mem_keys_aset {α : Type} (m : List (String × α)) (k k2 : String) (v : α)
    (h : k2 ∈ (aset m k v).map Prod.fst) : k2 ∈ m.map Prod.fst ∨ k2 = k := by
  obtain ⟨e, he, hfst⟩ := List.mem_map.mp h
  rcases mem_aset m k v e he with h1 | h1
  · exact Or.inl (List.mem_map.mpr ⟨e, h1, hfst⟩)
  · right
    rw [← hfst, h1]

/-- `aset` keeps the keys of an association list duplicate-free. -/
theorem nodup_keys_aset {α : Type} (m : List (String × α)) (k : String) (v : α)
    (h : (m.map Prod.fst).Nodup) : ((aset m k v).map Prod.fst).Nodup := by
  induction m with
  | nil =>
      rw [aset]
      exact List.nodup_cons.mpr ⟨List.not_mem_nil k, List.nodup_nil⟩
  | cons e rest ih =>
      obtain ⟨k', v'⟩ := e
      simp only [List.map_cons] at h
      obtain ⟨h1, h2⟩ := List.nodup_cons.mp h
      rw [aset]
      by_cases hk : k' = k
      · rw [if_pos hk]
        simp only [List.map_cons]
        subst hk
        exact List.nodup_cons.mpr ⟨h1, h2⟩
      · rw [if_neg hk]
        simp only [List.map_cons]
        refine List.nodup_cons.mpr ⟨?_, ih h2⟩
        intro hmem
        rcases mem_keys_aset rest k k' v hmem with h3 | h3
        · exact h1 h3
        · exact hk h3

/-- `aset` at key `sid` with a value whose id is `sid` preserves both halves
of `ServersWF` at the list level. -/
theorem wf_aset_servers (sv : List (String × ServerMetadata)) (sid : String)
    (m : ServerMetadata) (h1 : (sv.map Prod.fst).Nodup)
    (h2 : ∀ e ∈ sv, e.2.server_id = e.1) (hm : m.server_id = sid) :
    ((aset sv sid m).map Prod.fst).Nodup ∧
      ∀ e ∈ aset sv sid m, e.2.server_id = e.1 := by
  refine ⟨nodup_keys_aset sv sid m h1, fun e he => ?_⟩
  rcases mem_aset sv sid m e he with h | h
  · exact h2 e h
  · rw [h]
    exact hm

/-- `addChunkLocStep` preserves `ServersWF`: it only refreshes
`stored_chunks`/`chunk_count` of a value already keyed under its id. -/
theorem wf_addChunkLocStep (cid : String) (st : MasterState) (sid : String)
    (hwf : ServersWF st) : ServersWF (addChunkLocStep cid st sid) := by
  obtain ⟨h1, h2⟩ := hwf
  cases h : alookup st.servers sid with
  | none =>
      simp only [addChunkLocStep, h]
      exact ⟨h1, h2⟩
  | some sm =>
      simp only [addChunkLocStep, h]
      have hid : sm.server_id = sid := h2 (sid, sm) (alookup_mem st.servers sid sm h)
      exact wf_aset_servers st.servers sid _ h1 h2 hid

/-- Folding `addChunkLocStep` over any location list preserves `ServersWF`. -/
theorem wf_foldl_addChunkLocStep (cid : String) (l : List String) :
    ∀ st : MasterState, ServersWF st →
      ServersWF (l.foldl (addChunkLocStep cid) st) := by
  induction l with
  | nil => exact fun st h => h
  | cons s t ih => exact fun st h => ih _ (wf_addChunkLocStep cid st s h)

/-- `MetadataManager::addChunk` preserves `ServersWF` (it never touches the
server map's keys and only refreshes chunk bookkeeping fields). -/
theorem wf_addChunk (st : MasterState) (cid : String) (meta : ChunkMetadata)
    (hwf : ServersWF st) : ServersWF (addChunk st cid meta) := by
  rw [addChunk]
  exact wf_foldl_addChunkLocStep cid meta.server_locations _ ⟨hwf.1, hwf.2⟩

/-- `allocateServersForChunk` preserves `ServersWF` of the threaded state. -/
theorem wf_allocateServersForChunk (strat : Strategy) (σ : MasterState × Nat)
    (cid : String) (count : Nat) (exclude : List String) (now : Int)
    (hwf : ServersWF σ.1) :
    ServersWF (allocateServersForChunk strat σ cid count exclude now).2.1 := by
  rw [allocateServersForChunk]
  split
  · exact hwf
  · exact wf_addChunk σ.1 cid _ hwf

/-- The servers returned by `allocateServersForChunk` are exactly the
strategy's selection (recording the placement does not change them). -/
theorem allocateServersForChunk_fst (strat : Strategy) (σ : MasterState × Nat)
    (cid : String) (count : Nat) (exclude : List String) (now : Int) :
    (allocateServersForChunk strat σ cid count exclude now).1 =
      (runStrategy strat σ.1 σ.2 count exclude).1 := by
  rw [allocateServersForChunk]
  split <;> rfl

/-- Under `ServersWF` the available servers carry pairwise distinct ids
(they are read off a `std::map` keyed by id). -/
theorem availIds_nodup (st : MasterState) (exclude : List String)
    (hwf : ServersWF st) :
    ((getAvailableServers st exclude).map (fun s => s.server_id)).Nodup := by
  have hkeys : (st.servers.map Prod.snd).map (fun s => s.server_id) =
      st.servers.map Prod.fst := by
    rw [List.map_map]
    exact List.map_congr_left (fun e he => hwf.2 e he)
  have hsub : List.Sublist (getAvailableServers st exclude) (st.servers.map Prod.snd) := by
    rw [getAvailableServers, getHealthyServers]
    exact (List.filter_sublist _).trans (List.filter_sublist _)
  have hmap := hsub.map (fun s => s.server_id)
  rw [hkeys] at hmap
  exact hwf.1.sublist hmap

/-- `getAvailableServers` filters out every excluded server. -/
theorem mem_avail (st : MasterState) (exclude : List String) (s : ServerMetadata)
    (h : s ∈ getAvailableServers st exclude) : s.server_id ∉ exclude := by
  rw [getAvailableServers] at h
  have h2 := (List.mem_filter.mp h).2
  rw [Bool.and_eq_true] at h2
  exact of_decide_eq_true h2.1

/-- `allocateLeastLoaded` returns pairwise distinct, non-excluded servers. -/
theorem allocateLeastLoaded_good (st : MasterState) (count : Nat)
    (exclude : List String) (hwf : ServersWF st) :
    (allocateLeastLoaded st count exclude).Nodup ∧
      ∀ x ∈ allocateLeastLoaded st count exclude, x ∉ exclude := by
  have hperm := List.perm_insertionSort
    (fun a b => calculateServerLoad a < calculateServerLoad b)
    (getAvailableServers st exclude)
  have hnd : (((getAvailableServers st exclude).insertionSort
      (fun a b => calculateServerLoad a < calculateServerLoad b)).map
      (fun s => s.server_id)).Nodup :=
    ((hperm.map (fun s => s.server_id)).nodup_iff).mpr (availIds_nodup st exclude hwf)
  constructor
  · rw [allocateLeastLoaded, List.map_take]
    exact hnd.sublist (List.take_sublist _ _)
  · intro x hx
    rw [allocateLeastLoaded] at hx
    obtain ⟨s, hs, hsid⟩ := List.mem_map.mp hx
    have hs2 := List.take_subset _ _ hs
    have hs3 := hperm.subset hs2
    rw [← hsid]
    exact mem_avail st exclude s hs3

/-- The round-robin selection loop: starting from distinct available ids and
a duplicate-free accumulator disjoint from them, the loop returns a
duplicate-free list drawn from the accumulator and the available ids. -/
theorem rrLoop_good :
    ∀ (n : Nat) (avail : List ServerMetadata) (idx : Nat) (acc : List String),
      (avail.map (fun s => s.server_id)).Nodup → acc.Nodup →
      (∀ x ∈ acc, x ∉ avail.map (fun s => s.server_id)) →
      (rrLoop n avail idx acc).1.Nodup ∧
        ∀ x ∈ (rrLoop n avail idx acc).1,
          x ∈ acc ∨ x ∈ avail.map (fun s => s.server_id) := by
  intro n
  induction n with
  | zero =>
      intro avail idx acc _ h2 _
      rw [rrLoop]
      exact ⟨List.nodup_reverse.mpr h2, fun x hx => Or.inl (List.mem_reverse.mp hx)⟩
  | succ n ih =>
      intro avail idx acc h1 h2 h3
      rw [rrLoop]
      by_cases he : avail.isEmpty = true
      · rw [if_pos he]
        exact ⟨List.nodup_reverse.mpr h2, fun x hx => Or.inl (List.mem_reverse.mp hx)⟩
      · rw [if_neg he]
        have hne : avail ≠ [] := fun hnil => he (List.isEmpty_iff.mpr hnil)
        have hlen : idx % avail.length < avail.length :=
          Nat.mod_lt idx (List.length_pos.mpr hne)
        have hiL : idx % avail.length < (avail.map (fun s => s.server_id)).length := by
          rw [List.length_map]
          exact hlen
        have hsel : (avail.getD (idx % avail.length) default).server_id =
            (avail.map (fun s => s.server_id))[idx % avail.length] := by
          rw [List.getD_eq_getElem avail default hlen, List.getElem_map]
        have herase : (avail.eraseIdx (idx % avail.length)).map (fun s => s.server_id) =
            (avail.map (fun s => s.server_id)).eraseIdx (idx % avail.length) := by
          rw [List.eraseIdx_eq_take_drop_succ, List.eraseIdx_eq_take_drop_succ,
            List.map_append, List.map_take, List.map_drop]
        have hdecomp : avail.map (fun s => s.server_id) =
            (avail.map (fun s => s.server_id)).take (idx % avail.length) ++
              (avail.map (fun s => s.server_id))[idx % avail.length] ::
              (avail.map (fun s => s.server_id)).drop (idx % avail.length + 1) := by
          conv_lhs => rw [← List.take_append_drop (idx % avail.length)
            (avail.map (fun s => s.server_id))]
          rw [List.drop_eq_getElem_cons hiL]
        have hselin : (avail.getD (idx % avail.length) default).server_id ∈
            avail.map (fun s => s.server_id) := by
          rw [hsel]
          exact List.getElem_mem hiL
        have hselout : (avail.getD (idx % avail.length) default).server_id ∉
            (avail.eraseIdx (idx % avail.length)).map (fun s => s.server_id) := by
          rw [herase, List.eraseIdx_eq_take_drop_succ, hsel]
          have hnd2 : ((avail.map (fun s => s.server_id)).take (idx % avail.length) ++
              (avail.map (fun s => s.server_id))[idx % avail.length] ::
              (avail.map (fun s => s.server_id)).drop (idx % avail.length + 1)).Nodup := by
            rw [← hdecomp]
            exact h1
          rw [List.nodup_append] at hnd2
          obtain ⟨hta, hcons, hdisj⟩ := hnd2
          obtain ⟨hnotdrop, _⟩ := List.nodup_cons.mp hcons
          intro hmem
          rcases List.mem_append.mp hmem with hm | hm
          · exact hdisj hm (List.mem_cons_self _ _)
          · exact hnotdrop hm
        have h1' : ((avail.eraseIdx (idx % avail.length)).map
            (fun s => s.server_id)).Nodup := by
          rw [herase]
          exact h1.sublist (List.eraseIdx_sublist _ _)
        have hselacc : (avail.getD (idx % avail.length) default).server_id ∉ acc :=
          fun hmem => h3 _ hmem hselin
        have h2' : ((avail.getD (idx % avail.length) default).server_id :: acc).Nodup :=
          List.nodup_cons.mpr ⟨hselacc, h2⟩
        have h3' : ∀ x ∈ (avail.getD (idx % avail.length) default).server_id :: acc,
            x ∉ (avail.eraseIdx (idx % avail.length)).map (fun s => s.server_id) := by
          intro x hx
          rcases List.mem_cons.mp hx with hx1 | hx1
          · rw [hx1]
            exact hselout
          · intro hmem
            apply h3 x hx1
            rw [herase] at hmem
            exact (List.eraseIdx_sublist _ _).subset hmem
        refine ⟨(ih _ _ _ h1' h2' h3').1, fun x hx => ?_⟩
        rcases (ih _ _ _ h1' h2' h3').2 x hx with hm | hm
        · rcases List.mem_cons.mp hm with hm1 | hm1
          · right
            rw [hm1]
            exact hselin
          · left
            exact hm1
        · right
          rw [herase] at hm
          exact (List.eraseIdx_sublist _ _).subset hm

/-- The zone pass only appends, and what it appends is a sublist of the
walked servers' ids. -/
theorem zaPass1_spec (zones : String → String) :
    ∀ (ss : List ServerMetadata) (count : Nat) (used res : List String),
      ∃ t, zaPass1 zones ss count used res = res ++ t ∧
        List.Sublist t (ss.map (fun s => s.server_id)) := by
  intro ss
  induction ss with
  | nil =>
      intro count used res
      refine ⟨[], ?_, List.nil_sublist _⟩
      rw [zaPass1, List.append_nil]
  | cons s rest ih =>
      intro count used res
      rw [zaPass1]
      by_cases hc : count ≤ res.length
      · rw [if_pos hc]
        exact ⟨[], (List.append_nil res).symm, List.nil_sublist _⟩
      · rw [if_neg hc]
        by_cases hz : zones s.server_id ∈ used
        · rw [if_pos hz]
          obtain ⟨t, ht1, ht2⟩ := ih count used res
          exact ⟨t, ht1, ht2.cons _⟩
        · rw [if_neg hz]
          obtain ⟨t, ht1, ht2⟩ := ih count (zones s.server_id :: used) (res ++ [s.server_id])
          refine ⟨s.server_id :: t, ?_, ht2.cons₂ _⟩
          rw [ht1, List.append_assoc, List.singleton_append]

/-- `allocateZoneAware` returns pairwise distinct, non-excluded servers:
the zone pass picks a sublist of the distinct available ids and the
least-loaded fill excludes everything already picked. -/
theorem allocateZoneAware_good (zones : String → String) (st : MasterState)
    (count : Nat) (exclude : List String) (hwf : ServersWF st) :
    (allocateZoneAware zones st count exclude).Nodup ∧
      ∀ x ∈ allocateZoneAware zones st count exclude, x ∉ exclude := by
  obtain ⟨t, h1, h2⟩ := zaPass1_spec zones (getAvailableServers st exclude) count [] []
  have hr1 : zaPass1 zones (getAvailableServers st exclude) count [] [] = t := by
    simpa using h1
  have hnd1 : t.Nodup := (availIds_nodup st exclude hwf).sublist h2
  have hmem1 : ∀ x ∈ t, x ∉ exclude := by
    intro x hx
    obtain ⟨s, hs, hsid⟩ := List.mem_map.mp (h2.subset hx)
    rw [← hsid]
    exact mem_avail st exclude s hs
  rw [allocateZoneAware, hr1]
  by_cases hlen : t.length < count
  · rw [if_pos hlen]
    obtain ⟨hnd2, hmem2⟩ := allocateLeastLoaded_good st (count - t.length) (exclude ++ t) hwf
    constructor
    · exact hnd1.append hnd2
        (fun x hx1 hx2 => hmem2 x hx2 (List.mem_append.mpr (Or.inr hx1)))
    · intro x hx
      rcases List.mem_append.mp hx with h | h
      · exact hmem1 x h
      · exact fun hxe => hmem2 x h (List.mem_append.mpr (Or.inl hxe))
  · rw [if_neg hlen]
    exact ⟨hnd1, hmem1⟩

/-- Every selection strategy returns pairwise distinct servers, none of
them excluded (for `RANDOM`, under the contract that `std::shuffle`
permutes). -/
theorem runStrategy_good (strat : Strategy) (hok : Strategy.Ok strat)
    (st : MasterState) (idx count : Nat) (exclude : List String)
    (hwf : ServersWF st) :
    (runStrategy strat st idx count exclude).1.Nodup ∧
      ∀ x ∈ (runStrategy strat st idx count exclude).1, x ∉ exclude := by
  cases strat with
  | roundRobin =>
      rw [runStrategy, allocateRoundRobin]
      by_cases he : (getAvailableServers st exclude).isEmpty = true
      · rw [if_pos he]
        exact ⟨List.nodup_nil, fun x hx => absurd hx (List.not_mem_nil x)⟩
      · rw [if_neg he]
        obtain ⟨ha, hb⟩ := rrLoop_good count (getAvailableServers st exclude) idx []
          (availIds_nodup st exclude hwf) List.nodup_nil
          (fun x hx => absurd hx (List.not_mem_nil x))
        refine ⟨ha, fun x hx => ?_⟩
        rcases hb x hx with h | h
        · exact absurd h (List.not_mem_nil x)
        · obtain ⟨s, hs, hsid⟩ := List.mem_map.mp h
          rw [← hsid]
          exact mem_avail st exclude s hs
  | leastLoaded =>
      rw [runStrategy]
      exact allocateLeastLoaded_good st count exclude hwf
  | random perm =>
      rw [runStrategy, allocateRandom]
      by_cases he : (getAvailableServers st exclude).isEmpty = true
      · rw [if_pos he]
        exact ⟨List.nodup_nil, fun x hx => absurd hx (List.not_mem_nil x)⟩
      · rw [if_neg he]
        have hperm : List.Perm (getAvailableServers st exclude)
            (perm (getAvailableServers st exclude)) := hok _
        have hnd : ((perm (getAvailableServers st exclude)).map
            (fun s => s.server_id)).Nodup :=
          ((hperm.map (fun s => s.server_id)).nodup_iff).mp
            (availIds_nodup st exclude hwf)
        constructor
        · rw [List.map_take]
          exact hnd.sublist (List.take_sublist _ _)
        · intro x hx
          obtain ⟨s, hs, hsid⟩ := List.mem_map.mp hx
          have hs2 := List.take_subset _ _ hs
          have hs3 := hperm.symm.subset hs2
          rw [← hsid]
          exact mem_avail st exclude s hs3
  | zoneAware zones =>
      rw [runStrategy]
      exact allocateZoneAware_good zones st count exclude hwf

/-- The erasure block loop: each block's servers are distinct, all the
group's blocks land on pairwise distinct servers (the growing
`exclude_servers` list keeps later blocks off earlier blocks' servers),
none of the picked servers was excluded, and the threaded state stays
well-formed. -/
theorem allocGroupGo_good (strat : Strategy) (hok : Strategy.Ok strat)
    (gid : String) (chunkSize : Int) (k : Nat) (now : Int) :
    ∀ (blocks : List Nat) (σ : MasterState × Nat) (exclude : List String),
      ServersWF σ.1 →
      (∀ ci ∈ (allocGroupGo strat gid chunkSize k now blocks σ exclude).1,
          ci.server_addresses.Nodup) ∧
        (((allocGroupGo strat gid chunkSize k now blocks σ exclude).1.map
            (fun ci => ci.server_addresses)).flatten).Nodup ∧
        (∀ x ∈ ((allocGroupGo strat gid chunkSize k now blocks σ exclude).1.map
            (fun ci => ci.server_addresses)).flatten, x ∉ exclude) ∧
        ServersWF (allocGroupGo strat gid chunkSize k now blocks σ exclude).2.1 := by
  intro blocks
  induction blocks with
  | nil =>
      intro σ exclude hwf
      rw [allocGroupGo]
      exact ⟨fun ci hci => absurd hci (List.not_mem_nil ci), List.nodup_nil,
        fun x hx => absurd hx (List.not_mem_nil x), hwf⟩
  | cons b rest ih =>
      intro σ exclude hwf
      rw [allocGroupGo]
      by_cases hem : (allocateServersForChunk strat σ (gid ++ "_block_" ++ toString b)
          1 exclude now).1.isEmpty = true
      · rw [if_pos hem]
        exact ih _ exclude (wf_allocateServersForChunk strat σ _ 1 exclude now hwf)
      · rw [if_neg hem]
        have hgood := runStrategy_good strat hok σ.1 σ.2 1 exclude hwf
        have hfst := allocateServersForChunk_fst strat σ
          (gid ++ "_block_" ++ toString b) 1 exclude now
        have hand : (allocateServersForChunk strat σ (gid ++ "_block_" ++ toString b)
            1 exclude now).1.Nodup := by
          rw [hfst]
          exact hgood.1
        have hamem : ∀ x ∈ (allocateServersForChunk strat σ
            (gid ++ "_block_" ++ toString b) 1 exclude now).1, x ∉ exclude := by
          rw [hfst]
          exact hgood.2
        have hwf2 := wf_allocateServersForChunk strat σ
          (gid ++ "_block_" ++ toString b) 1 exclude now hwf
        obtain ⟨ih1, ih2, ih3, ih4⟩ := ih
          (allocateServersForChunk strat σ (gid ++ "_block_" ++ toString b) 1 exclude now).2
          (exclude ++ (allocateServersForChunk strat σ (gid ++ "_block_" ++ toString b)
            1 exclude now).1) hwf2
        refine ⟨?_, ?_, ?_, ih4⟩
        · intro ci hci
          rcases List.mem_cons.mp hci with h | h
          · rw [h]
            exact hand
          · exact ih1 ci h
        · simp only [List.map_cons, List.flatten_cons]
          exact hand.append ih2
            (fun x hx1 hx2 => ih3 x hx2 (List.mem_append.mpr (Or.inr hx1)))
        · intro x hx
          simp only [List.map_cons, List.flatten_cons] at hx
          rcases List.mem_append.mp hx with h | h
          · exact hamem x h
          · exact fun hxe => ih3 x h (List.mem_append.mpr (Or.inl hxe))

/-- One erasure group: distinct servers per block and across the whole
group, with a well-formed state threaded out. -/
theorem allocGroup_good (strat : Strategy) (hok : Strategy.Ok strat) (gid : String)
    (chunkSize : Int) (k total : Nat) (now : Int) (σ : MasterState × Nat)
    (hwf : ServersWF σ.1) :
    (∀ ci ∈ (allocGroup strat gid chunkSize k total now σ).1,
        ci.server_addresses.Nodup) ∧
      (((allocGroup strat gid chunkSize k total now σ).1.map
          (fun ci => ci.server_addresses)).flatten).Nodup ∧
      ServersWF (allocGroup strat gid chunkSize k total now σ).2.1 := by
  obtain ⟨a, b, _, d⟩ := allocGroupGo_good strat hok gid chunkSize k now
    (List.range total) σ [] hwf
  exact ⟨a, b, d⟩

/-- The group loop of the erasure-coded branch: every produced group places
its blocks on pairwise distinct servers. -/
theorem ecGroupsGo_good (strat : Strategy) (hok : Strategy.Ok strat) (fid : String)
    (chunkSize : Int) (k total : Nat) (now : Int) :
    ∀ (gs : List Nat) (σ : MasterState × Nat), ServersWF σ.1 →
      (∀ g ∈ (ecGroupsGo strat fid chunkSize k total now gs σ).1,
          (∀ ci ∈ g, ci.server_addresses.Nodup) ∧
            ((g.map (fun ci => ci.server_addresses)).flatten).Nodup) ∧
        ServersWF (ecGroupsGo strat fid chunkSize k total now gs σ).2.1 := by
  intro gs
  induction gs with
  | nil =>
      intro σ hwf
      rw [ecGroupsGo]
      exact ⟨fun g hg => absurd hg (List.not_mem_nil g), hwf⟩
  | cons g rest ih =>
      intro σ hwf
      rw [ecGroupsGo]
      obtain ⟨ha, hb, hd⟩ := allocGroup_good strat hok
        (fid ++ "_group_" ++ toString g) chunkSize k total now σ hwf
      obtain ⟨ih1, ih2⟩ := ih
        (allocGroup strat (fid ++ "_group_" ++ toString g) chunkSize k total now σ).2 hd
      refine ⟨?_, ih2⟩
      intro g2 hg2
      rcases List.mem_cons.mp hg2 with h | h
      · rw [h]
        exact ⟨ha, hb⟩
      · exact ih1 g2 h

/-- The chunk loop of the replicated branch: every produced chunk's replica
list is duplicate-free. -/
theorem replGo_good (strat : Strategy) (hok : Strategy.Ok strat) (fid : String)
    (repl : Nat) (fileSize : Int) (now : Int) :
    ∀ (idxs : List Nat) (σ : MasterState × Nat), ServersWF σ.1 →
      (∀ ci ∈ (replGo strat fid repl fileSize now idxs σ).1,
          ci.server_addresses.Nodup) ∧
        ServersWF (replGo strat fid repl fileSize now idxs σ).2.1 := by
  intro idxs
  induction idxs with
  | nil =>
      intro σ hwf
      rw [replGo]
      exact ⟨fun ci hci => absurd hci (List.not_mem_nil ci), hwf⟩
  | cons i rest ih =>
      intro σ hwf
      rw [replGo]
      have hgood := runStrategy_good strat hok σ.1 σ.2 repl [] hwf
      have hfst := allocateServersForChunk_fst strat σ
        (fid ++ "_chunk_" ++ toString i) repl [] now
      have hwfA := wf_allocateServersForChunk strat σ
        (fid ++ "_chunk_" ++ toString i) repl [] now hwf
      obtain ⟨ih1, ih2⟩ := ih
        (allocateServersForChunk strat σ (fid ++ "_chunk_" ++ toString i) repl [] now).2 hwfA
      refine ⟨?_, ih2⟩
      intro ci hci
      rcases List.mem_cons.mp hci with h | h
      · rw [h, hfst]
        exact hgood.1
      · exact ih1 ci h

/-- **C7** (confirmed): for every allocation returned by
`ChunkAllocator::allocateChunks` — under every selection strategy, assuming
the `std::shuffle` contract for `RANDOM` and a well-formed `servers_` map —
the server list of each returned chunk contains no server twice, and within
each erasure group (the per-group lists produced by the erasure-coded
branch, whose concatenation is the returned allocation) the `k+m` blocks
are placed on pairwise distinct servers. -/
theorem allocateChunks_diversity (strat : Strategy) (σ : MasterState × Nat)
    (fid : String) (fileSize : Int) (ec : Bool) (chunkSize : Int) (repl : Nat)
    (now : Int) (hok : Strategy.Ok strat) (hwf : ServersWF σ.1) :
    (∀ ci ∈ (allocateChunks strat σ fid fileSize ec chunkSize repl now).1,
        ci.server_addresses.Nodup) ∧
      ∀ g ∈ (ecGroupsGo strat fid chunkSize EC_DATA_BLOCKS
          (EC_DATA_BLOCKS + EC_PARITY_BLOCKS) now
          (List.range (Int.tdiv (fileSize + chunkSize - 1) chunkSize).toNat) σ).1,
        ((g.map (fun ci => ci.server_addresses)).flatten).Nodup := by
  constructor
  · intro ci hci
    rw [allocateChunks] at hci
    by_cases hec : ec = true
    · rw [if_pos hec] at hci
      obtain ⟨g, hg, hcig⟩ := List.mem_flatten.mp hci
      exact ((ecGroupsGo_good strat hok fid chunkSize EC_DATA_BLOCKS
        (EC_DATA_BLOCKS + EC_PARITY_BLOCKS) now _ σ hwf).1 g hg).1 ci hcig
    · rw [if_neg hec] at hci
      exact (replGo_good strat hok fid repl fileSize now _ σ hwf).1 ci hci
  · intro g hg
    exact ((ecGroupsGo_good strat hok fid chunkSize EC_DATA_BLOCKS
      (EC_DATA_BLOCKS + EC_PARITY_BLOCKS) now _ σ hwf).1 g hg).2

/-- Witness for `allocateChunks_diversity`: a least-loaded allocation over
the empty (trivially well-formed) master state. -/
theorem allocateChunks_diversity_witness :
    (∀ ci ∈ (allocateChunks Strategy.leastLoaded (⟨[], [], [], []⟩, 0)
        "f" 1 false 1 1 0).1, ci.server_addresses.Nodup) ∧
      ∀ g ∈ (ecGroupsGo Strategy.leastLoaded "f" 1 EC_DATA_BLOCKS
          (EC_DATA_BLOCKS + EC_PARITY_BLOCKS) 0
          (List.range (Int.tdiv (1 + 1 - 1) 1).toNat) (⟨[], [], [], []⟩, 0)).1,
        ((g.map (fun ci => ci.server_addresses)).flatten).Nodup :=
  allocateChunks_diversity Strategy.leastLoaded (⟨[], [], [], []⟩, 0) "f" 1 false 1 1 0
    True.intro ⟨List.nodup_nil, fun e he => absurd he (List.not_mem_nil e)⟩

end DFS
